import Mathlib

/-!
# Verification of the `mara-schema` data-set resolution and generation core

A shallow embedding, in Lean 4, of the parts of the `mara_schema` Python
package that the specification's checkable claims are about:

* the entity / attribute / entity-link graph model (`mara_schema/schema.py`,
  classes `Entity`, `Entity.Attribute`, `Entity.EntityLink`, `DataSet`);
* the path-resolution algorithm `paths_to_connected_entities`
  (`schema.py`, lines 466-501) with its cycle rule, excluded-path rule and
  `max_entity_link_depth` / `included_paths` rule;
* attribute visibility `DataSet.connected_attributes` (`schema.py` 433-448);
* metric SQL rendering `SimpleMetric.sql_formula` / `ComposedMetric.sql_formula`
  (`schema.py` 224-228 and 259-264);
* the Mondrian calculated-member formula and default measure
  (`mara_schema/mondrian_schema_generation.py`, `Cube.add_calculated_members`
  and `Cube.get_xml_element`);
* name normalization `normalize_name` / `Attribute.prefixed_name`
  (`mara_schema/attribute.py` 42-87), including a full model of `hashlib.md5`.

Python objects with reference identity (entity-link instances, entities) are
given explicit numeric identities (`id` fields); Python's default `==` on such
objects is object identity, which the `id` fields make structural.  Python
strings are modelled as `List Char` (Python string length counts code points,
as does `List.length`; the character classes of the regexes involved are
modelled for ASCII text, which is what every identifier-like name in the
package is).  The mutually-referencing Python object graph becomes a `Graph`
of entities addressed by id; an attribute access `link.target_entity` becomes
a lookup that can fail (`Option`), and a `none` models a dangling reference
that cannot arise for an actual Python object graph (`wellFormed` below).

The unbounded recursion of `traverse_graph` is modelled with explicit fuel;
running out of fuel yields `none`.  The theorem for the termination claim
shows the canonical fuel (number of entity-link instances + 1) is never
exhausted, by exactly the argument the spec gives: no path repeats a link
instance, so recursion depth is bounded by the number of distinct links.
-/

namespace MaraSchema

/-- Attribute type tags (`mara_schema/schema.py`, class `Type`). -/
inductive AType where
  | date
  | duration
  | id
  | enum
  | array
deriving DecidableEq, Repr

/-- `Entity.Attribute` (`schema.py` 105-121): a property of an entity.
Descriptions are irrelevant to every claim and omitted. -/
structure Attribute where
  name : List Char
  columnName : List Char
  type? : Option AType
  highCardinality : Bool
  personalData : Bool
  importantField : Bool
  accessibleViaEntityLink : Bool
deriving DecidableEq, Repr

/-- `Entity.EntityLink` (`schema.py` 123-133): a directed edge to the entity
with id `target`.  `id` is the Python object identity of the link instance:
two links with equal fields but different `id` model two distinct Python
`EntityLink` objects (edge identity is per-instance). -/
structure EntityLink where
  id : Nat
  target : Nat
  linkPrefix : List Char
  fkColumn : List Char
deriving DecidableEq, Repr

/-- `Entity` (`schema.py` 7-103): a node of the entity graph, addressed by
`id`; owns ordered attributes and ordered outgoing links. -/
structure Entity where
  id : Nat
  name : List Char
  attributes : List Attribute
  entityLinks : List EntityLink
deriving DecidableEq, Repr

/-- A path is an ordered tuple of entity links starting at a data set's root
entity (`typing.Tuple[Entity.EntityLink]` in the source). -/
abbrev Path := List EntityLink

/-- The assembled entity graph: the set of all `Entity` objects, addressed by
their ids.  In Python this set is implicit in the object references. -/
structure Graph where
  entities : List Entity
deriving Repr

/-- Resolve an entity id, modelling a Python object reference.  `none` models
a reference to an entity that does not exist (impossible in Python). -/
def Graph.entity? (g : Graph) (i : Nat) : Option Entity :=
  g.entities.find? (fun e => e.id == i)

/-- All entity-link instances of the graph. -/
def Graph.allLinks (g : Graph) : List EntityLink :=
  g.entities.flatMap (fun e => e.entityLinks)

/-- Aggregation methods (`schema.py`, class `Aggregation`). -/
inductive Aggregation where
  | sum
  | average
  | count
  | distinctCount
deriving DecidableEq, Repr

/-- Metrics of a data set (`schema.py`, classes `SimpleMetric` and
`ComposedMetric`).  A composed metric's `formula_template` is produced by
`add_composed_metric` as `'{}'.join(formula_split[0::2])`: the literal text
segments around the placeholders; we store those `segments` (the joined
template string is recovered by `templateChars`).  `entityName` of a simple
metric is `self.data_set.entity.name`, used by `sql_formula`. -/
inductive Metric where
  | simple (name : List Char) (entityName : List Char) (columnName : List Char)
      (aggregation : Aggregation)
  | composed (name : List Char) (segments : List (List Char)) (parents : List Metric)

/-- `metric.name` of either kind of metric. -/
def Metric.name : Metric → List Char
  | .simple n _ _ _ => n
  | .composed n _ _ => n

/-- `DataSet` (`schema.py` 267-448): root entity, optional
`max_entity_link_depth`, the four override collections, and the
insertion-ordered metric dictionary (modelled as an association list). -/
structure DataSet where
  entityId : Nat
  maxEntityLinkDepth : Option Nat
  excludedPaths : List Path
  includedPaths : List Path
  includedAttributes : List (Path × List Attribute)
  excludedAttributes : List (Path × List Attribute)
  metrics : List (List Char × Metric)

/-! ## Path resolution (`paths_to_connected_entities`, `schema.py` 466-501) -/

/-- One step of `_append_path_including_subpaths`'s loop body:
`if path[:i+1] not in paths: paths.append(path[:i+1])`. -/
def insertIfAbsent (paths : List Path) (q : Path) : List Path :=
  if q ∈ paths then paths else paths ++ [q]

/-- The non-empty prefixes `path[:1], path[:2], ..., path[:len(path)]` visited
by the loop `for i in range(len(path))`. -/
def prefixesList (path : Path) : List Path :=
  (List.range path.length).map (fun i => path.take (i + 1))

/-- `_append_path_including_subpaths(paths, path)` (`schema.py` 478-485):
append a path and its subpaths from the start, each at most once, preserving
first-discovery order. -/
def appendPathIncludingSubpaths (paths : List Path) (path : Path) : List Path :=
  (prefixesList path).foldl insertIfAbsent paths

/-- The pruning condition of `traverse_graph` (`schema.py` 491-495) for
extending `currentPath` with link `l` into `path = currentPath ++ [l]`:
the link does not occur in the current path (cycle rule), the extended path is
not explicitly excluded, and it is not beyond `max_entity_link_depth` unless
explicitly included. -/
def traversalGuard (ds : DataSet) (currentPath : Path) (l : EntityLink) : Bool :=
  let path := currentPath ++ [l]
  !(currentPath.contains l) && !(ds.excludedPaths.contains path) &&
    !(match ds.maxEntityLinkDepth with
      | some n => decide (n < path.length) && !(ds.includedPaths.contains path)
      | none => false)

/-- The part of the guard that depends on the extended path only (exclusion
and depth rules); `traversalGuard` is this together with the cycle rule. -/
def pathGuard (ds : DataSet) (path : Path) : Bool :=
  !(ds.excludedPaths.contains path) &&
    !(match ds.maxEntityLinkDepth with
      | some n => decide (n < path.length) && !(ds.includedPaths.contains path)
      | none => false)

/-- The loop `for entity_link in entity.entity_links` of `traverse_graph`
(`schema.py` 488-497) over the remaining `links`, with `recur` standing for
the recursive call `traverse_graph(entity_link.target_entity, path)` on the
next depth level.  The `Graph.entity?` lookup models the object dereference
`entity_link.target_entity`; a `none` result propagates a failure of `recur`
or of a lookup. -/
def traverseLinks (g : Graph) (ds : DataSet)
    (recur : Entity → Path → List Path → Option (List Path)) :
    List EntityLink → Path → List Path → Option (List Path)
  | [], _, paths => some paths
  | l :: rest, currentPath, paths =>
    if traversalGuard ds currentPath l then
      match g.entity? l.target with
      | none => none
      | some e' =>
        let path := currentPath ++ [l]
        match recur e' path (appendPathIncludingSubpaths paths path) with
        | none => none
        | some paths' => traverseLinks g ds recur rest currentPath paths'
    else traverseLinks g ds recur rest currentPath paths

/-- `traverse_graph(entity, current_path)` (`schema.py` 487-497).  `fuel`
bounds the recursion depth (Python has no such bound; `none` models a
hypothetical infinite recursion, and the termination theorem shows the
canonical fuel is never exhausted). -/
def traverseEntity (g : Graph) (ds : DataSet) :
    Nat → Entity → Path → List Path → Option (List Path)
  | 0, _, _, _ => none
  | fuel + 1, e, currentPath, paths =>
    traverseLinks g ds (traverseEntity g ds fuel) e.entityLinks currentPath paths

/-- `paths_to_connected_entities(data_set)` (`schema.py` 466-501): all visible
paths to connected entities, run with the canonical fuel (one more than the
number of entity-link instances in the graph). -/
def pathsToConnectedEntities (g : Graph) (ds : DataSet) : Option (List Path) :=
  match g.entity? ds.entityId with
  | none => none
  | some root => traverseEntity g ds (g.allLinks.length + 1) root [] []

/-! ## Attribute visibility (`DataSet.connected_attributes`, `schema.py` 433-448) -/

/-- The visibility condition of `connected_attributes` for attribute `a` at
non-empty path `path` (`schema.py` 440-445): whitelist, blacklist,
`accessible_via_entity_link`, and the personal-data flag. -/
def visibleAt (ds : DataSet) (path : Path) (includePersonalData : Bool)
    (a : Attribute) : Bool :=
  (match ds.includedAttributes.lookup path with
   | some l => l.contains a
   | none => true) &&
  (match ds.excludedAttributes.lookup path with
   | some l => !(l.contains a)
   | none => true) &&
  a.accessibleViaEntityLink && (includePersonalData || !a.personalData)

/-- The loop `for path in paths_to_connected_entities(self)` of
`connected_attributes`: each path maps to the visible attributes of its final
entity; a path whose visible-attribute list is empty gets no entry at all
(`result[path] = attributes` runs only inside the append branch).
`path.getLast?` models `path[-1]`, the entity lookup models
`.target_entity`. -/
def collectAttributes (g : Graph) (ds : DataSet) (includePersonalData : Bool) :
    List Path → Option (List (Path × List Attribute))
  | [] => some []
  | path :: rest =>
    match path.getLast? with
    | none => none
    | some l =>
      match g.entity? l.target with
      | none => none
      | some e =>
        match collectAttributes g ds includePersonalData rest with
        | none => none
        | some tail =>
          let attrs := e.attributes.filter (visibleAt ds path includePersonalData)
          some (if attrs.isEmpty then tail else (path, attrs) :: tail)

/-- `DataSet.connected_attributes(include_personal_data)` (`schema.py`
433-448): starts from `result = {(): self.entity.attributes}` — the empty
path maps to ALL attributes of the root entity, with no filtering — then adds
one entry per connected path with at least one visible attribute. -/
def connectedAttributes (g : Graph) (ds : DataSet) (includePersonalData : Bool) :
    Option (List (Path × List Attribute)) :=
  match g.entity? ds.entityId, pathsToConnectedEntities g ds with
  | some root, some paths =>
    (collectAttributes g ds includePersonalData paths).map
      (fun rest => (([] : Path), root.attributes) :: rest)
  | _, _ => none

/-! ## Metric rendering (`sql_formula`, `schema.py` 224-228 and 259-264) -/

/-- The `formula_template` string of a composed metric, recovered from its
segments: `'{}'.join(segments)` (the placeholder braces written as their
character codes). -/
def templateChars (segments : List (List Char)) : List Char :=
  (segments.intersperse ['\x7b', '\x7d']).flatten

/-- `'/' in self.formula_template` (`schema.py` 260). -/
def templateHasDivision (segments : List (List Char)) : Bool :=
  templateChars segments |>.contains '/'

/-- Python `formula_template.format(*args)` for a template with only empty
`\x7b\x7d` placeholders between consecutive segments: interleave segments and
arguments.  By construction (`add_composed_metric`) the number of arguments
equals the number of placeholders (`segments.length - 1`). -/
def formatTemplate : List (List Char) → List (List Char) → List Char
  | [], _ => []
  | s :: srest, [] => s ++ formatTemplate srest []
  | s :: srest, a :: arest => s ++ a ++ formatTemplate srest arest

mutual

/-- `Metric.sql_formula` (`schema.py` 224-228 for `SimpleMetric`, 259-264 for
`ComposedMetric`): COUNT/DISTINCT_COUNT render as a null-safe presence
indicator, other aggregations as COALESCE; a composed metric substitutes each
parent's rendered formula into its template, wrapping EVERY parent in
`(NULLIF(..., 0.0))` when the template contains `'/'` anywhere, and in plain
parentheses otherwise (`sqlFormulaGuarded` / `sqlFormulaPlain` render the two
list comprehensions). -/
def Metric.sqlFormula : Metric → List Char
  | .simple _ entityName columnName aggregation =>
    if aggregation = .distinctCount ∨ aggregation = .count then
      ("(\"".toList ++ entityName ++ "\".".toList ++ columnName ++
        " IS NOT NULL) ::INTEGER :: SMALLINT".toList)
    else
      ("COALESCE(\"".toList ++ entityName ++ "\".".toList ++ columnName ++ ", 0)".toList)
  | .composed _ segments parents =>
    if templateHasDivision segments then
      formatTemplate segments (sqlFormulaGuarded parents)
    else
      formatTemplate segments (sqlFormulaPlain parents)

/-- `[f'(NULLIF({metric.sql_formula()}, 0.0))' for metric in parent_metrics]`. -/
def sqlFormulaGuarded : List Metric → List (List Char)
  | [] => []
  | p :: ps => ("(NULLIF(".toList ++ p.sqlFormula ++ ", 0.0))".toList) :: sqlFormulaGuarded ps

/-- `[f'({metric.sql_formula()})' for metric in parent_metrics]`. -/
def sqlFormulaPlain : List Metric → List (List Char)
  | [] => []
  | p :: ps => ('(' :: p.sqlFormula ++ [')']) :: sqlFormulaPlain ps

end

/-- Interleaving for the spec-side formatter: `divSeen` carries whether a
division operator occurred in an earlier segment, so that exactly the parents
standing after a division operator get the guard. -/
def specFormatDivGuard (render : Metric → List Char) (wrapGuard : List Char → List Char)
    (wrapPlain : List Char → List Char) :
    Bool → List (List Char) → List Metric → List Char
  | _, [], _ => []
  | divSeen, s :: srest, [] =>
    s ++ specFormatDivGuard render wrapGuard wrapPlain (divSeen || s.contains '/') srest []
  | divSeen, s :: srest, p :: prest =>
    let seen := divSeen || s.contains '/'
    s ++ (if seen then wrapGuard (render p) else wrapPlain (render p)) ++
      specFormatDivGuard render wrapGuard wrapPlain seen srest prest

/-- Modelled from the spec's words, for comparison with the source's
`Metric.sqlFormula` (the claim is a refinement statement): substitute each
parent's rendered SQL into the template and wrap a parent in the
not-equal-to-zero guard if and only if that parent appears after a division
operator in the template (parents not after a division keep only the plain
parentheses). -/
def Metric.sqlFormulaSpecDivGuard : Metric → List Char
  | .simple n e c a => Metric.sqlFormula (.simple n e c a)
  | .composed _ segments parents =>
    specFormatDivGuard Metric.sqlFormula
      (fun r => "(NULLIF(".toList ++ r ++ ", 0.0))".toList)
      (fun r => '(' :: r ++ [')'])
      false segments parents

/-! ## Mondrian calculated members and default measure
(`mondrian_schema_generation.py` 381-402) -/

/-- Python `str.replace(c, r)` for a one-character pattern: every occurrence
of `c` is replaced by `r`, left to right. -/
def replaceChar (c : Char) (r : List Char) : List Char → List Char
  | [] => []
  | x :: xs => if x = c then r ++ replaceChar c r xs else x :: replaceChar c r xs

/-- The formula of the calculated member generated for a `ComposedMetric`
(`Cube.add_calculated_members`, `mondrian_schema_generation.py` 387-388):
`formula_template.format(*['[' + name + ']' ...]).replace('[', '[Measures].[')`.
No division guard of any kind is applied. -/
def calculatedMemberFormula (segments : List (List Char)) (parents : List Metric) :
    List Char :=
  replaceChar '[' "[Measures].[".toList
    (formatTemplate segments (parents.map (fun p => '[' :: p.name ++ [']'])))

/-- Modelled from the spec's words, for comparison with the source's
`calculatedMemberFormula` (the claim is a refinement statement): substitute
each parent's qualified name `[Measures].[name]` into the template, applying
the same NULLIF-style division guard as the SQL generator to any parent
appearing after a division operator. -/
def calculatedMemberFormulaSpecDivGuard (segments : List (List Char))
    (parents : List Metric) : List Char :=
  specFormatDivGuard (fun p => "[Measures].[".toList ++ p.name ++ [']'])
    (fun r => "(NULLIF(".toList ++ r ++ ", 0.0))".toList)
    (fun r => r)
    false segments parents

/-- The default measure declared by `Cube.get_xml_element`
(`mondrian_schema_generation.py` 399-400):
`list(self.data_set.metrics.keys())[0]`, the first metric name in insertion
order.  The index access `[0]` on an empty list raises `IndexError` in
Python; `none` models that failure. -/
def cubeDefaultMeasure (ds : DataSet) : Option (List Char) :=
  (ds.metrics.map Prod.fst).head?

/-! ## `hashlib.md5`, modelled from RFC 1321

`normalize_name` (`mara_schema/attribute.py` 60-87) appends the first 8
characters of `hashlib.md5(name.encode('utf-8')).hexdigest()` to over-long
names.  `hashlib` is the Python standard library, not part of this
repository, so the MD5 algorithm is transcribed from its definition:
little-endian padding and word layout, 64 rounds per 512-bit block over
32-bit modular arithmetic, lowercase-hex digest of the four state words. -/

/-- The 64 MD5 round constants `K[i] = floor(abs(sin(i+1)) * 2^32)`. -/
def md5K : List Nat :=
  [0xd76aa478, 0xe8c7b756, 0x242070db, 0xc1bdceee,
   0xf57c0faf, 0x4787c62a, 0xa8304613, 0xfd469501,
   0x698098d8, 0x8b44f7af, 0xffff5bb1, 0x895cd7be,
   0x6b901122, 0xfd987193, 0xa679438e, 0x49b40821,
   0xf61e2562, 0xc040b340, 0x265e5a51, 0xe9b6c7aa,
   0xd62f105d, 0x02441453, 0xd8a1e681, 0xe7d3fbc8,
   0x21e1cde6, 0xc33707d6, 0xf4d50d87, 0x455a14ed,
   0xa9e3e905, 0xfcefa3f8, 0x676f02d9, 0x8d2a4c8a,
   0xfffa3942, 0x8771f681, 0x6d9d6122, 0xfde5380c,
   0xa4beea44, 0x4bdecfa9, 0xf6bb4b60, 0xbebfbc70,
   0x289b7ec6, 0xeaa127fa, 0xd4ef3085, 0x04881d05,
   0xd9d4d039, 0xe6db99e5, 0x1fa27cf8, 0xc4ac5665,
   0xf4292244, 0x432aff97, 0xab9423a7, 0xfc93a039,
   0x655b59c3, 0x8f0ccc92, 0xffeff47d, 0x85845dd1,
   0x6fa87e4f, 0xfe2ce6e0, 0xa3014314, 0x4e0811a1,
   0xf7537e82, 0xbd3af235, 0x2ad7d2bb, 0xeb86d391]

/-- The 64 MD5 per-round left-rotation amounts. -/
def md5S : List Nat :=
  [7, 12, 17, 22, 7, 12, 17, 22, 7, 12, 17, 22, 7, 12, 17, 22,
   5, 9, 14, 20, 5, 9, 14, 20, 5, 9, 14, 20, 5, 9, 14, 20,
   4, 11, 16, 23, 4, 11, 16, 23, 4, 11, 16, 23, 4, 11, 16, 23,
   6, 10, 15, 21, 6, 10, 15, 21, 6, 10, 15, 21, 6, 10, 15, 21]

/-- 32-bit rotate left. -/
def rotl32 (x s : Nat) : Nat :=
  ((x <<< s) ||| (x >>> (32 - s))) % 4294967296

/-- The MD5 round function: F, G, H, I for rounds 0-15, 16-31, 32-47,
48-63 (bitwise complement written as xor with the 32-bit mask). -/
def md5F (i b c d : Nat) : Nat :=
  if i < 16 then (b &&& c) ||| ((b ^^^ 0xffffffff) &&& d)
  else if i < 32 then (d &&& b) ||| ((d ^^^ 0xffffffff) &&& c)
  else if i < 48 then b ^^^ c ^^^ d
  else c ^^^ (b ||| (d ^^^ 0xffffffff))

/-- The MD5 message-word index for round `i`. -/
def md5G (i : Nat) : Nat :=
  if i < 16 then i
  else if i < 32 then (5 * i + 1) % 16
  else if i < 48 then (3 * i + 5) % 16
  else (7 * i) % 16

/-- One MD5 round on the state `(a, b, c, d)` with message words `M`. -/
def md5Step (M : List Nat) (st : Nat × Nat × Nat × Nat) (i : Nat) :
    Nat × Nat × Nat × Nat :=
  let (a, b, c, d) := st
  let f := (md5F i b c d + a + md5K.getD i 0 + M.getD (md5G i) 0) % 4294967296
  (d, (b + rotl32 f (md5S.getD i 0)) % 4294967296, b, c)

/-- Process one 16-word block: 64 rounds, then add into the incoming state. -/
def md5Block (st : Nat × Nat × Nat × Nat) (M : List Nat) : Nat × Nat × Nat × Nat :=
  let (a, b, c, d) := (List.range 64).foldl (md5Step M) st
  let (a0, b0, c0, d0) := st
  ((a0 + a) % 4294967296, (b0 + b) % 4294967296,
   (c0 + c) % 4294967296, (d0 + d) % 4294967296)

/-- `count` little-endian bytes of `n`. -/
def natToLE (n count : Nat) : List Nat :=
  (List.range count).map (fun i => (n >>> (8 * i)) % 256)

/-- MD5 padding: append `0x80`, zero-fill to 56 mod 64, then the bit length
as eight little-endian bytes. -/
def md5Pad (msg : List Nat) : List Nat :=
  let len := msg.length
  let zeros := (56 + 64 - (len + 1) % 64) % 64
  msg ++ [0x80] ++ List.replicate zeros 0 ++ natToLE ((8 * len) % 18446744073709551616) 8

/-- Split a byte list into 64-byte blocks (`fuel` is the list length,
consumed at least one byte per block). -/
def chunk64Go : Nat → List Nat → List (List Nat)
  | 0, _ => []
  | _ + 1, [] => []
  | fuel + 1, x :: xs => ((x :: xs).take 64) :: chunk64Go fuel ((x :: xs).drop 64)

/-- Split a byte list into 64-byte blocks. -/
def chunk64 (l : List Nat) : List (List Nat) :=
  chunk64Go l.length l

/-- Interpret bytes as 32-bit little-endian words. -/
def bytesToWords : List Nat → List Nat
  | b0 :: b1 :: b2 :: b3 :: rest =>
    (b0 + 256 * b1 + 65536 * b2 + 16777216 * b3) :: bytesToWords rest
  | _ => []

/-- The 16-byte MD5 digest of a byte string. -/
def md5Digest (msg : List Nat) : List Nat :=
  let blocks := chunk64 (md5Pad msg)
  let st := blocks.foldl (fun st blk => md5Block st (bytesToWords blk))
    (0x67452301, 0xefcdab89, 0x98badcfe, 0x10325476)
  natToLE st.1 4 ++ natToLE st.2.1 4 ++ natToLE st.2.2.1 4 ++ natToLE st.2.2.2 4

/-- Lowercase hexadecimal digit. -/
def hexDigitChar (n : Nat) : Char :=
  if n < 10 then Char.ofNat (48 + n) else Char.ofNat (87 + n)

/-- Two lowercase hex characters of one byte. -/
def byteToHex (b : Nat) : List Char :=
  [hexDigitChar (b / 16 % 16), hexDigitChar (b % 16)]

/-- UTF-8 encoding of one character (Python `str.encode('utf-8')`). -/
def utf8Bytes (c : Char) : List Nat :=
  let n := c.toNat
  if n < 0x80 then [n]
  else if n < 0x800 then [0xc0 ||| (n >>> 6), 0x80 ||| (n &&& 0x3f)]
  else if n < 0x10000 then
    [0xe0 ||| (n >>> 12), 0x80 ||| ((n >>> 6) &&& 0x3f), 0x80 ||| (n &&& 0x3f)]
  else
    [0xf0 ||| (n >>> 18), 0x80 ||| ((n >>> 12) &&& 0x3f),
     0x80 ||| ((n >>> 6) &&& 0x3f), 0x80 ||| (n &&& 0x3f)]

/-- `hashlib.md5(s.encode('utf-8')).hexdigest()` as a character list. -/
def md5Hex (s : List Char) : List Char :=
  (md5Digest (s.flatMap utf8Bytes)).flatMap byteToHex

/-! ## Name normalization (`normalize_name`, `mara_schema/attribute.py` 60-87)

The regex character classes are modelled for ASCII text (`\w` as
alphanumeric-or-underscore, `\s` and `str.strip` as the ASCII whitespace
characters), which covers every name in the package and its examples. -/

/-- Python regex `\w` (ASCII range). -/
def isWordChar (c : Char) : Bool :=
  c.isAlphanum || c = '_'

/-- Python regex `\s` / `str.strip` whitespace (ASCII range). -/
def isSpaceChar (c : Char) : Bool :=
  c = ' ' || c = '\t' || c = '\n' || c = '\r' || c = '\x0b' || c = '\x0c'

/-- Split a string into maximal runs of word / non-word characters, each run
tagged with whether it consists of word characters: a character is prepended
to the first run when it is of the same kind, and opens a new run otherwise.
Word runs are exactly the places a `\b\w+` regex fragment can match. -/
def toChunks : List Char → List (Bool × List Char)
  | [] => []
  | c :: cs =>
    match toChunks cs with
    | [] => [(isWordChar c, [c])]
    | (b, run) :: rest =>
      if isWordChar c == b then (b, c :: run) :: rest
      else (isWordChar c, [c]) :: (b, run) :: rest

/-- Concatenate the runs back into a string. -/
def flattenChunks (l : List (Bool × List Char)) : List Char :=
  l.flatMap Prod.snd

/-- Drop the repetitions `( \1\b)+` of the word run `w`: consume leading
(single space, `w`) pairs. -/
def dropWordReps (w : List Char) : List (Bool × List Char) → List (Bool × List Char)
  | (false, sp) :: (true, w') :: rest =>
    if sp = [' '] ∧ w' = w then dropWordReps w rest
    else (false, sp) :: (true, w') :: rest
  | l => l

/-- The effect of `re.sub(r'\b(\w+)( \1\b)+', r'\1', ·)` on the run list:
a word run followed by one or more repetitions of (single space, the same
word run) collapses to the word run alone; scanning then continues after the
match, exactly as `re.sub` continues after each non-overlapping match.
`fuel` is the run-list length, consumed at least one run per step. -/
def rrwGo : Nat → List (Bool × List Char) → List (Bool × List Char)
  | 0, l => l
  | _ + 1, [] => []
  | fuel + 1, (false, s) :: rest => (false, s) :: rrwGo fuel rest
  | fuel + 1, (true, w) :: rest => (true, w) :: rrwGo fuel (dropWordReps w rest)

/-- The repeated-word collapse on a whole run list. -/
def rrwChunks (l : List (Bool × List Char)) : List (Bool × List Char) :=
  rrwGo l.length l

/-- `re.sub(r'\b(\w+)( \1\b)+', r'\1', s)`: remove immediately-repeated
whole words ("First booking booking ID" becomes "First booking ID"). -/
def removeRepeatingWords (s : List Char) : List Char :=
  flattenChunks (rrwChunks (toChunks s))

/-- Python `str.strip()`: drop leading and trailing whitespace. -/
def pyStrip (s : List Char) : List Char :=
  ((s.dropWhile isSpaceChar).reverse.dropWhile isSpaceChar).reverse

/-- `re.sub('\s\s+', ' ', s)`: replace each run of two or more whitespace
characters by a single space (a lone whitespace character is kept as is).
Each step shortens the string, so its length serves as fuel. -/
def collapseWsGo : Nat → List Char → List Char
  | 0, l => l
  | _ + 1, [] => []
  | _ + 1, [c] => [c]
  | fuel + 1, c :: d :: rest =>
    if isSpaceChar c && isSpaceChar d then collapseWsGo fuel (' ' :: rest)
    else c :: collapseWsGo fuel (d :: rest)

/-- The whitespace collapse on a whole string. -/
def collapseWs (s : List Char) : List Char :=
  collapseWsGo s.length s

/-- The normalized name before the length limit: repeated words removed,
stripped, whitespace collapsed, first letter capitalized
(`first_letter_capitalize`).  `string[0]` on the empty string raises
`IndexError` in Python; `none` models that. -/
def preTruncation (s : List Char) : Option (List Char) :=
  match collapseWs (pyStrip (removeRepeatingWords s)) with
  | [] => none
  | c :: cs => some (c.toUpper :: cs)

/-- The length limit of `normalize_name`: `if max_length and len(name) >
max_length`, keep the first `max_length - 8` characters (Python slice
semantics for a negative bound when `max_length < 8`) and append the first 8
characters of the MD5 hex digest of the full pre-truncation name. -/
def limitLength (maxLength : Nat) (n : List Char) : List Char :=
  if maxLength ≠ 0 ∧ maxLength < n.length then
    (if 8 ≤ maxLength then n.take (maxLength - 8)
     else n.take (n.length - (8 - maxLength))) ++ (md5Hex n).take 8
  else n

/-- `normalize_name(name, max_length)` (`attribute.py` 60-87). -/
def normalizeNameChars (maxLength : Nat) (s : List Char) : Option (List Char) :=
  (preTruncation s).map (limitLength maxLength)

/-- The `first_lower` helper of `Attribute.prefixed_name` (`attribute.py`
46-51): lowercase the first letter unless the first two characters are both
capitals (`re.match(r'([A-Z]){2}', ·)`). -/
def firstLower : List Char → List Char
  | [] => []
  | [a] => [a.toLower]
  | a :: b :: rest =>
    if a.isUpper && b.isUpper then a :: b :: rest else a.toLower :: b :: rest

/-- `Attribute.prefixed_name(path)` (`attribute.py` 42-57): join the path's
link prefixes lower-cased with single spaces, append the attribute name with
its first letter lowered, and normalize; with no path, just normalize the
attribute name. -/
def prefixedName (a : Attribute) (prefixes : List (List Char)) : Option (List Char) :=
  if prefixes.isEmpty then normalizeNameChars 63 a.name
  else normalizeNameChars 63
    (List.intercalate [' '] (prefixes.map (fun p => p.map Char.toLower)) ++
      ' ' :: firstLower a.name)

/-- Lowercase-hexadecimal digit test, for the digest-suffix theorem. -/
def isHexDigitChar (c : Char) : Bool :=
  c.isDigit || ('a' ≤ c && c ≤ 'f')

/-- No two adjacent whitespace characters (the fixed points of
`collapseWs`). -/
def noAdjacentWs : List Char → Bool
  | c :: d :: rest => !(isSpaceChar c && isSpaceChar d) && noAdjacentWs (d :: rest)
  | _ => true

/-- No word run immediately repeated across a single space (the fixed points
of `rrwChunks`). -/
def chunksNoReps : List (Bool × List Char) → Bool
  | (true, w) :: (false, sp) :: (true, w') :: rest =>
    !(decide (sp = [' ']) && decide (w' = w)) &&
      chunksNoReps ((false, sp) :: (true, w') :: rest)
  | _ :: rest => chunksNoReps rest
  | [] => true

/-- A name on which every normalization stage of `normalize_name` is the
identity: non-empty, no immediately-repeated word, no leading or trailing
whitespace, no two adjacent whitespace characters, capitalized first letter,
and within the length limit. -/
def isNormalizedB (s : List Char) : Bool :=
  !s.isEmpty &&
  chunksNoReps (toChunks s) &&
  (match s.head? with | some c => !isSpaceChar c | none => true) &&
  (match s.getLast? with | some c => !isSpaceChar c | none => true) &&
  noAdjacentWs s &&
  (match s.head? with | some c => c.toUpper == c | none => false) &&
  decide (s.length ≤ 63)

/-! ## Concrete model instances

A small entity graph mirroring the package's example
(`mara_schema/example/entities`, `src/examples/data_sets.py`): an
"Order item" entity linking to "Order", "Order" linking to "Customer", and
"Customer" linking back to "Order" — the link chain of the spec's scenarios.
Link `id`s are the distinct Python object identities of the three
`EntityLink` instances. -/

/-- "Order item ID" attribute of the "Order item" entity. -/
def attrOrderItemId : Attribute :=
  { name := "Order item ID".toList, columnName := "order_item_id".toList,
    type? := some .id, highCardinality := true, personalData := false,
    importantField := false, accessibleViaEntityLink := true }

/-- "Order date" attribute of the "Order" entity. -/
def attrOrderDate : Attribute :=
  { name := "Order date".toList, columnName := "order_date".toList,
    type? := some .date, highCardinality := false, personalData := false,
    importantField := true, accessibleViaEntityLink := true }

/-- "Status" attribute of the "Order" entity. -/
def attrStatus : Attribute :=
  { name := "Status".toList, columnName := "status".toList,
    type? := some .enum, highCardinality := false, personalData := false,
    importantField := true, accessibleViaEntityLink := true }

/-- "Age" attribute of the "Customer" entity, flagged as personal data. -/
def attrAge : Attribute :=
  { name := "Age".toList, columnName := "age".toList,
    type? := none, highCardinality := false, personalData := true,
    importantField := false, accessibleViaEntityLink := true }

/-- The link Order item → Order. -/
def linkOrderItemOrder : EntityLink :=
  { id := 1, target := 1, linkPrefix := "Order".toList, fkColumn := "order_fk".toList }

/-- The link Order → Customer. -/
def linkOrderCustomer : EntityLink :=
  { id := 2, target := 2, linkPrefix := "Customer".toList, fkColumn := "customer_fk".toList }

/-- The link Customer → Order (the "First order" back-reference). -/
def linkCustomerOrder : EntityLink :=
  { id := 3, target := 1, linkPrefix := "First order".toList,
    fkColumn := "first_order_fk".toList }

/-- The "Order item" entity (graph node 0). -/
def entityOrderItem : Entity :=
  { id := 0, name := "Order item".toList, attributes := [attrOrderItemId],
    entityLinks := [linkOrderItemOrder] }

/-- The "Order" entity (graph node 1). -/
def entityOrder : Entity :=
  { id := 1, name := "Order".toList, attributes := [attrOrderDate, attrStatus],
    entityLinks := [linkOrderCustomer] }

/-- The "Customer" entity (graph node 2). -/
def entityCustomer : Entity :=
  { id := 2, name := "Customer".toList, attributes := [attrAge],
    entityLinks := [linkCustomerOrder] }

/-- The example graph: Order item → Order → Customer → Order. -/
def exGraph : Graph :=
  ⟨[entityOrderItem, entityOrder, entityCustomer]⟩

/-- The 3-hop path Order item → Order → Customer → Order. -/
def threeHopPath : Path :=
  [linkOrderItemOrder, linkOrderCustomer, linkCustomerOrder]

/-- The "Order items" data set of the spec's scenario: rooted at "Order
item", `max_entity_link_depth = 1`, with
`include_attributes(['Order', 'Customer', 'Order'], ['Order date'])`. -/
def dsOrderItemsDepth1 : DataSet :=
  { entityId := 0, maxEntityLinkDepth := some 1,
    excludedPaths := [], includedPaths := [],
    includedAttributes := [(threeHopPath, [attrOrderDate])],
    excludedAttributes := [], metrics := [] }

/-- The same data set without the depth limit. -/
def dsOrderItemsNoDepth : DataSet :=
  { dsOrderItemsDepth1 with maxEntityLinkDepth := none }

/-- An "Order items" data set with `max_entity_link_depth = 1` and
`include_path(['Order', 'Customer'])` (the package example's override). -/
def dsOrderItemsInclPath : DataSet :=
  { entityId := 0, maxEntityLinkDepth := some 1,
    excludedPaths := [], includedPaths := [[linkOrderItemOrder, linkOrderCustomer]],
    includedAttributes := [], excludedAttributes := [], metrics := [] }

/-- The "Customers" data set of the spec's exclusion scenario, before the
exclusion: rooted at "Customer" with `max_entity_link_depth = 2`. -/
def dsCustomers : DataSet :=
  { entityId := 2, maxEntityLinkDepth := some 2,
    excludedPaths := [], includedPaths := [],
    includedAttributes := [], excludedAttributes := [], metrics := [] }

/-- The path `[('Order', 'First order'), 'Customer']` the scenario
excludes. -/
def customerBackRefPath : Path :=
  [linkCustomerOrder, linkOrderCustomer]

/-- The "Customers" data set after
`exclude_path([('Order', 'First order'), 'Customer'])`. -/
def dsCustomersExcl : DataSet :=
  { dsCustomers with excludedPaths := [customerBackRefPath] }

/-- A one-entity graph whose root owns a personal-data attribute, for the
root-path personal-data filter claim. -/
def gPersonRoot : Graph :=
  ⟨[{ id := 10, name := "Person".toList, attributes := [attrAge], entityLinks := [] }]⟩

/-- A data set rooted at that entity, with no overrides. -/
def dsPersonRoot : DataSet :=
  { entityId := 10, maxEntityLinkDepth := none,
    excludedPaths := [], includedPaths := [],
    includedAttributes := [], excludedAttributes := [], metrics := [] }

/-- `SimpleMetric('Revenue (lifetime)', ..., 'revenue_lifetime', SUM)` of the
example's "Customers" data set. -/
def metricRevenueLifetime : Metric :=
  .simple "Revenue (lifetime)".toList "Customer".toList "revenue_lifetime".toList .sum

/-- `SimpleMetric('# Orders', ..., 'number_of_orders', SUM)`. -/
def metricNumOrders : Metric :=
  .simple "# Orders".toList "Customer".toList "number_of_orders".toList .sum

/-- `ComposedMetric` for the formula `[Revenue (lifetime)] / [# Orders]`
(segments and parents as produced by `add_composed_metric`). -/
def metricRevenuePerOrder : Metric :=
  .composed "Revenue per order".toList ["".toList, " / ".toList, "".toList]
    [metricRevenueLifetime, metricNumOrders]

/-- `ComposedMetric` for the formula `[Revenue (lifetime)] + [# Orders]`, the
division-free case. -/
def metricRevenuePlus : Metric :=
  .composed "Revenue plus orders".toList ["".toList, " + ".toList, "".toList]
    [metricRevenueLifetime, metricNumOrders]

/-- A composed metric whose own template has no division but whose parent
does: `[Revenue per order] + [# Orders]`, showing recursive propagation of
the guard. -/
def metricNestedPlus : Metric :=
  .composed "Nested".toList ["".toList, " + ".toList, "".toList]
    [metricRevenuePerOrder, metricNumOrders]

/-- Substring test (used to state that a rendered formula does or does not
contain a guard). -/
def hasSubstring (s pat : List Char) : Bool :=
  (List.range (s.length + 1)).any (fun i => pat.isPrefixOf (s.drop i))

/-- The "Customers" data set with its three metrics, in insertion order, as
in the package example. -/
def dsCustomersMetrics : DataSet :=
  { dsCustomers with metrics :=
      [("# Orders".toList, metricNumOrders),
       ("Revenue (lifetime)".toList, metricRevenueLifetime),
       ("Revenue per order".toList, metricRevenuePerOrder)] }

/-- The invariant of every path registered by `traverse_graph`: non-empty,
no repeated link instance, every non-empty prefix (the path itself included)
passes the exclusion/depth guard, and every link's target dereferences. -/
def GoodPath (g : Graph) (ds : DataSet) (p : Path) : Prop :=
  p ≠ [] ∧ p.Nodup ∧ (∀ q, q ≠ [] → q <+: p → pathGuard ds q = true) ∧
    (∀ l ∈ p, (g.entity? l.target).isSome)

/-- Well-formedness of the embedded object graph: the data set's root entity
and every link target dereference.  For an actual Python object graph this is
automatic — `data_set.entity` and `entity_link.target_entity` are object
references — so it only discharges the lookup artifacts of the embedding. -/
def wellFormed (g : Graph) (ds : DataSet) : Prop :=
  (g.entity? ds.entityId).isSome ∧
    ∀ e ∈ g.entities, ∀ l ∈ e.entityLinks, (g.entity? l.target).isSome

/-! ## Lemmas about path registration and traversal -/

theorem mem_insertIfAbsent {paths : List Path} {q r : Path} :
    r ∈ insertIfAbsent paths q ↔ r ∈ paths ∨ r = q := by
  unfold insertIfAbsent
  by_cases h : q ∈ paths <;> simp [h]
  rintro rfl
  exact h

theorem mem_foldl_insertIfAbsent {l : List Path} :
    ∀ {paths : List Path} {r : Path},
      r ∈ l.foldl insertIfAbsent paths ↔ r ∈ paths ∨ r ∈ l := by
  induction l with
  | nil => simp
  | cons q l ih =>
    intro paths r
    simp only [List.foldl_cons, ih, mem_insertIfAbsent, List.mem_cons]
    tauto

theorem mem_prefixesList {p q : Path} :
    q ∈ prefixesList p ↔ q ≠ [] ∧ q <+: p := by
  unfold prefixesList
  simp only [List.mem_map, List.mem_range]
  constructor
  · rintro ⟨i, hi, rfl⟩
    refine ⟨?_, List.take_prefix _ _⟩
    intro h
    have hlen := congrArg List.length h
    simp only [List.length_take, List.length_nil] at hlen
    omega
  · rintro ⟨hne, hpre⟩
    have hq := List.prefix_iff_eq_take.mp hpre
    have hlen : q.length ≤ p.length := hpre.length_le
    have hpos : 0 < q.length := List.length_pos.mpr hne
    refine ⟨q.length - 1, by omega, ?_⟩
    rw [show q.length - 1 + 1 = q.length by omega]
    exact hq.symm

theorem mem_appendPathIncludingSubpaths {paths : List Path} {p r : Path} :
    r ∈ appendPathIncludingSubpaths paths p ↔ r ∈ paths ∨ (r ≠ [] ∧ r <+: p) := by
  unfold appendPathIncludingSubpaths
  rw [mem_foldl_insertIfAbsent, mem_prefixesList]

theorem self_mem_appendPathIncludingSubpaths {paths : List Path} {p : Path}
    (h : p ≠ []) : p ∈ appendPathIncludingSubpaths paths p :=
  mem_appendPathIncludingSubpaths.mpr (Or.inr ⟨h, List.prefix_refl p⟩)

theorem subset_appendPathIncludingSubpaths {paths : List Path} {p : Path} :
    paths ⊆ appendPathIncludingSubpaths paths p := fun _ hr =>
  mem_appendPathIncludingSubpaths.mpr (Or.inl hr)

/-- Splitting the traversal guard into the cycle rule and the path-only
rules. -/
theorem traversalGuard_iff {ds : DataSet} {cp : Path} {l : EntityLink} :
    traversalGuard ds cp l = true ↔
      l ∉ cp ∧ pathGuard ds (cp ++ [l]) = true := by
  unfold traversalGuard pathGuard
  simp [Bool.and_assoc, and_assoc]

/-- A prefix of a snoc is a prefix of the base or the whole list. -/
theorem prefix_snoc_cases {q cp : Path} {l : EntityLink}
    (h : q <+: cp ++ [l]) : q <+: cp ∨ q = cp ++ [l] := by
  rcases h with ⟨t, ht⟩
  rcases t.eq_nil_or_concat with rfl | ⟨t', a, rfl⟩
  · right
    simpa using ht
  · left
    rw [List.concat_eq_append, ← List.append_assoc] at ht
    exact ⟨t', (List.append_inj' ht rfl).1⟩

/-- `GoodPath` is closed under non-empty prefixes. -/
theorem GoodPath.of_prefix {g : Graph} {ds : DataSet} {p q : Path}
    (hp : GoodPath g ds p) (hne : q ≠ []) (hq : q <+: p) : GoodPath g ds q := by
  obtain ⟨-, hnd, hguard, hlook⟩ := hp
  exact ⟨hne, hnd.sublist hq.sublist,
    fun r hr hrq => hguard r hr (hrq.trans hq),
    fun l hl => hlook l (hq.sublist.subset hl)⟩

/-- Soundness of the `traverse_graph` loop: with the invariant on the
current path and the accumulator, every path in a successful result
satisfies `GoodPath`. -/
theorem traverseLinks_sound (g : Graph) (ds : DataSet) :
    ∀ (fuel : Nat) (links : List EntityLink) (cp : Path) (paths out : List Path),
      traverseLinks g ds (traverseEntity g ds fuel) links cp paths = some out →
      cp.Nodup →
      (∀ q, q ≠ [] → q <+: cp → pathGuard ds q = true) →
      (∀ l ∈ cp, (g.entity? l.target).isSome) →
      (∀ p ∈ paths, GoodPath g ds p) →
      ∀ p ∈ out, GoodPath g ds p := by
  intro fuel
  induction fuel with
  | zero =>
    intro links
    induction links with
    | nil =>
      intro cp paths out h _ _ _ hpaths
      simp only [traverseLinks] at h
      cases h
      exact hpaths
    | cons l rest ih =>
      intro cp paths out h hnd hguards hlooks hpaths
      simp only [traverseLinks] at h
      by_cases hg : traversalGuard ds cp l = true
      · rw [if_pos hg] at h
        cases hlook : g.entity? l.target with
        | none => rw [hlook] at h; cases h
        | some e' =>
          rw [hlook] at h
          simp only [traverseEntity] at h
          cases h
      · rw [if_neg hg] at h
        exact ih cp paths out h hnd hguards hlooks hpaths
  | succ f ihf =>
    intro links
    induction links with
    | nil =>
      intro cp paths out h _ _ _ hpaths
      simp only [traverseLinks] at h
      cases h
      exact hpaths
    | cons l rest ih =>
      intro cp paths out h hnd hguards hlooks hpaths
      simp only [traverseLinks] at h
      by_cases hg : traversalGuard ds cp l = true
      · rw [if_pos hg] at h
        cases hlook : g.entity? l.target with
        | none => rw [hlook] at h; cases h
        | some e' =>
          rw [hlook] at h
          obtain ⟨hlmem, hpg⟩ := traversalGuard_iff.mp hg
          have hpath_good : GoodPath g ds (cp ++ [l]) := by
            refine ⟨by simp, ?_, ?_, ?_⟩
            · simp only [List.nodup_append, List.nodup_singleton]
              refine ⟨hnd, trivial, fun a ha hb => ?_⟩
              simp only [List.mem_singleton] at hb
              exact hlmem (hb ▸ ha)
            · intro q hq hqpre
              rcases prefix_snoc_cases hqpre with hcase | heq
              · exact hguards q hq hcase
              · exact heq ▸ hpg
            · intro l' hl'
              simp only [List.mem_append, List.mem_singleton] at hl'
              rcases hl' with hcase | rfl
              · exact hlooks l' hcase
              · simp [hlook]
          simp only [traverseEntity] at h
          cases hsub : traverseLinks g ds (traverseEntity g ds f) e'.entityLinks
              (cp ++ [l]) (appendPathIncludingSubpaths paths (cp ++ [l])) with
          | none => rw [hsub] at h; cases h
          | some paths' =>
            rw [hsub] at h
            have hpaths₁ :
                ∀ p ∈ appendPathIncludingSubpaths paths (cp ++ [l]), GoodPath g ds p := by
              intro p hp
              rcases mem_appendPathIncludingSubpaths.mp hp with hcase | ⟨hne, hpre⟩
              · exact hpaths p hcase
              · exact hpath_good.of_prefix hne hpre
            have hpaths' : ∀ p ∈ paths', GoodPath g ds p :=
              ihf e'.entityLinks (cp ++ [l]) _ paths' hsub
                hpath_good.2.1 hpath_good.2.2.1 hpath_good.2.2.2 hpaths₁
            exact ih cp paths' out h hnd hguards hlooks hpaths'
      · rw [if_neg hg] at h
        exact ih cp paths out h hnd hguards hlooks hpaths

/-- Soundness at the top level: every returned path of
`paths_to_connected_entities` is a `GoodPath`. -/
theorem pathsToConnectedEntities_sound {g : Graph} {ds : DataSet}
    {out : List Path} (h : pathsToConnectedEntities g ds = some out) :
    ∀ p ∈ out, GoodPath g ds p := by
  unfold pathsToConnectedEntities at h
  cases hroot : g.entity? ds.entityId with
  | none => rw [hroot] at h; cases h
  | some root =>
    rw [hroot] at h
    simp only [traverseEntity] at h
    exact traverseLinks_sound g ds g.allLinks.length root.entityLinks [] [] out h
      List.nodup_nil
      (by intro q hq hqp; exact absurd (List.prefix_nil.mp hqp) hq)
      (by intro l hl; cases hl)
      (by intro p hp; cases hp)

/-- A duplicate-free list of links drawn from a list is no longer than it. -/
theorem nodup_subset_length_le {l m : List EntityLink} (h : l.Nodup) (hs : l ⊆ m) :
    l.length ≤ m.length := by
  calc l.length = l.toFinset.card := (List.toFinset_card_of_nodup h).symm
    _ ≤ m.toFinset.card := Finset.card_le_card
        (by intro a ha; simp only [List.mem_toFinset] at *; exact hs ha)
    _ ≤ m.length := List.toFinset_card_le m

/-- Reading the path-only guard as propositions. -/
theorem pathGuard_iff {ds : DataSet} {p : Path} :
    pathGuard ds p = true ↔
      p ∉ ds.excludedPaths ∧
        ∀ n, ds.maxEntityLinkDepth = some n → p.length ≤ n ∨ p ∈ ds.includedPaths := by
  unfold pathGuard
  cases hmd : ds.maxEntityLinkDepth with
  | none => simp [List.elem_iff, hmd]
  | some n =>
    simp only [hmd, Bool.and_eq_true, Bool.not_eq_true', Option.some.injEq]
    constructor
    · rintro ⟨he, hd⟩
      refine ⟨by simpa [List.elem_iff] using he, ?_⟩
      rintro m rfl
      rcases Bool.and_eq_false_iff.mp hd with h | h
      · left
        simpa using of_decide_eq_false h
      · right
        simpa [List.elem_iff] using h
    · rintro ⟨he, hd⟩
      refine ⟨by simpa [List.elem_iff] using he, ?_⟩
      rcases hd n rfl with h | h
      · exact Bool.and_eq_false_iff.mpr (Or.inl (decide_eq_false (by omega)))
      · exact Bool.and_eq_false_iff.mpr (Or.inr (by simpa [List.elem_iff] using h))

/-- Membership in the collected links of the graph. -/
theorem mem_allLinks {g : Graph} {l : EntityLink} :
    l ∈ g.allLinks ↔ ∃ e ∈ g.entities, l ∈ e.entityLinks := by
  unfold Graph.allLinks
  exact List.mem_flatMap

/-- A resolved entity is one of the graph's entities. -/
theorem entity?_mem {g : Graph} {i : Nat} {e : Entity}
    (h : g.entity? i = some e) : e ∈ g.entities :=
  List.mem_of_find?_eq_some h

/-- With a dereferencing graph, `traverse_graph` never exhausts fuel
covering the number of link instances not yet on the current path: the
cycle rule keeps the current path duplicate-free, so its length never
exceeds the total number of link instances. -/
theorem traverseLinks_total (g : Graph) (ds : DataSet)
    (hwf : ∀ e ∈ g.entities, ∀ l ∈ e.entityLinks, (g.entity? l.target).isSome) :
    ∀ (fuel : Nat) (links : List EntityLink) (cp : Path) (paths : List Path),
      cp.Nodup → (∀ l ∈ cp, l ∈ g.allLinks) → (∀ l ∈ links, l ∈ g.allLinks) →
      g.allLinks.length ≤ fuel + cp.length →
      (traverseLinks g ds (traverseEntity g ds fuel) links cp paths).isSome := by
  intro fuel
  induction fuel with
  | zero =>
    intro links
    induction links with
    | nil =>
      intro cp paths _ _ _ _
      simp [traverseLinks]
    | cons l rest ih =>
      intro cp paths hnd hcp hlinks hbound
      simp only [traverseLinks]
      by_cases hg : traversalGuard ds cp l = true
      · exfalso
        obtain ⟨hlmem, -⟩ := traversalGuard_iff.mp hg
        have hsub : (cp ++ [l]).length ≤ g.allLinks.length := by
          refine nodup_subset_length_le ?_ ?_
          · simp only [List.nodup_append, List.nodup_singleton]
            refine ⟨hnd, trivial, fun a ha hb => ?_⟩
            simp only [List.mem_singleton] at hb
            exact hlmem (hb ▸ ha)
          · intro l' hl'
            simp only [List.mem_append, List.mem_singleton] at hl'
            rcases hl' with hcase | heq
            · exact hcp l' hcase
            · rw [heq]
              exact hlinks l (List.mem_cons_self l rest)
        simp only [List.length_append, List.length_singleton] at hsub
        omega
      · rw [if_neg hg]
        exact ih cp paths hnd hcp
          (fun l' hl' => hlinks l' (List.mem_cons_of_mem l hl')) hbound
  | succ f ihf =>
    intro links
    induction links with
    | nil =>
      intro cp paths _ _ _ _
      simp [traverseLinks]
    | cons l rest ih =>
      intro cp paths hnd hcp hlinks hbound
      simp only [traverseLinks]
      by_cases hg : traversalGuard ds cp l = true
      · rw [if_pos hg]
        obtain ⟨hlmem, -⟩ := traversalGuard_iff.mp hg
        have hl : l ∈ g.allLinks := hlinks l (List.mem_cons_self l rest)
        cases hlook : g.entity? l.target with
        | none =>
          exfalso
          obtain ⟨e, he, hle⟩ := mem_allLinks.mp hl
          have := hwf e he l hle
          rw [hlook] at this
          cases this
        | some e' =>
          have hsub : (traverseLinks g ds (traverseEntity g ds f) e'.entityLinks
              (cp ++ [l]) (appendPathIncludingSubpaths paths (cp ++ [l]))).isSome := by
            refine ihf e'.entityLinks (cp ++ [l]) _ ?_ ?_ ?_ ?_
            · simp only [List.nodup_append, List.nodup_singleton]
              refine ⟨hnd, trivial, fun a ha hb => ?_⟩
              simp only [List.mem_singleton] at hb
              exact hlmem (hb ▸ ha)
            · intro l' hl'
              simp only [List.mem_append, List.mem_singleton] at hl'
              rcases hl' with hcase | heq
              · exact hcp l' hcase
              · exact heq ▸ hl
            · intro l' hl'
              exact mem_allLinks.mpr ⟨e', entity?_mem hlook, hl'⟩
            · simp only [List.length_append, List.length_singleton]
              omega
          simp only [traverseEntity]
          cases hrun : traverseLinks g ds (traverseEntity g ds f) e'.entityLinks
              (cp ++ [l]) (appendPathIncludingSubpaths paths (cp ++ [l])) with
          | none => rw [hrun] at hsub; cases hsub
          | some paths' =>
            exact ih cp paths' hnd hcp
              (fun l' hl' => hlinks l' (List.mem_cons_of_mem l hl')) hbound
      · rw [if_neg hg]
        exact ih cp paths hnd hcp
          (fun l' hl' => hlinks l' (List.mem_cons_of_mem l hl')) hbound

/-- `paths_to_connected_entities` of a well-formed model always yields a
result: the canonical fuel suffices. -/
theorem pathsToConnectedEntities_total {g : Graph} {ds : DataSet}
    (hwf : wellFormed g ds) : (pathsToConnectedEntities g ds).isSome := by
  obtain ⟨hroot, hlinks⟩ := hwf
  unfold pathsToConnectedEntities
  cases hr : g.entity? ds.entityId with
  | none => rw [hr] at hroot; cases hroot
  | some root =>
    simp only [traverseEntity]
    exact traverseLinks_total g ds hlinks g.allLinks.length root.entityLinks [] _
      List.nodup_nil
      (by intro l hl; cases hl)
      (fun l hl => mem_allLinks.mpr ⟨root, entity?_mem hr, hl⟩)
      (by simp)

/-- `collectAttributes` succeeds on any list of paths that are non-empty and
whose link targets dereference. -/
theorem collectAttributes_total {g : Graph} {ds : DataSet} {b : Bool} :
    ∀ {paths : List Path},
      (∀ p ∈ paths, p ≠ [] ∧ ∀ l ∈ p, (g.entity? l.target).isSome) →
      (collectAttributes g ds b paths).isSome := by
  intro paths
  induction paths with
  | nil => intro _; simp [collectAttributes]
  | cons p rest ih =>
    intro h
    obtain ⟨hne, hlooks⟩ := h p (List.mem_cons_self p rest)
    have hrest := ih (fun q hq => h q (List.mem_cons_of_mem p hq))
    unfold collectAttributes
    cases hlast : p.getLast? with
    | none => exact absurd (List.getLast?_eq_none_iff.mp hlast) hne
    | some l =>
      have hl : l ∈ p := List.mem_of_mem_getLast? hlast
      have := hlooks l hl
      cases hlook : g.entity? l.target with
      | none => rw [hlook] at this; cases this
      | some e =>
        cases hcoll : collectAttributes g ds b rest with
        | none => rw [hcoll] at hrest; cases hrest
        | some tail => simp [hlook]

/-! ## Exclusion prunes exactly the subtree under the excluded path -/

theorem filter_insertIfAbsent_id {pred : Path → Bool} {paths : List Path} {r : Path}
    (h : r ∈ paths ∨ pred r = false) :
    (insertIfAbsent paths r).filter pred = paths.filter pred := by
  unfold insertIfAbsent
  by_cases hr : r ∈ paths
  · rw [if_pos hr]
  · rw [if_neg hr, List.filter_append]
    rcases h with h | h
    · exact absurd h hr
    · simp [h]

theorem filter_foldl_insertIfAbsent_id {pred : Path → Bool} :
    ∀ {items : List Path} {paths : List Path},
      (∀ r ∈ items, r ∈ paths ∨ pred r = false) →
      ((items.foldl insertIfAbsent paths).filter pred = paths.filter pred) := by
  intro items
  induction items with
  | nil => intro paths _; rfl
  | cons r items ih =>
    intro paths h
    simp only [List.foldl_cons]
    rw [ih, filter_insertIfAbsent_id (h r (List.mem_cons_self r items))]
    intro r' hr'
    rcases h r' (List.mem_cons_of_mem r hr') with hcase | hcase
    · exact Or.inl (mem_insertIfAbsent.mpr (Or.inl hcase))
    · exact Or.inr hcase

theorem filter_insertIfAbsent_comm {pred : Path → Bool} {paths : List Path} {r : Path}
    (h : pred r = true) :
    (insertIfAbsent paths r).filter pred = insertIfAbsent (paths.filter pred) r := by
  unfold insertIfAbsent
  by_cases hr : r ∈ paths
  · rw [if_pos hr, if_pos (List.mem_filter.mpr ⟨hr, h⟩)]
  · rw [if_neg hr, if_neg (fun hc => hr (List.mem_filter.mp hc).1), List.filter_append]
    simp [h]

theorem filter_foldl_insertIfAbsent_comm {pred : Path → Bool} :
    ∀ {items : List Path} {paths : List Path},
      (∀ r ∈ items, pred r = true) →
      (items.foldl insertIfAbsent paths).filter pred =
        items.foldl insertIfAbsent (paths.filter pred) := by
  intro items
  induction items with
  | nil => intro paths _; rfl
  | cons r items ih =>
    intro paths h
    simp only [List.foldl_cons]
    rw [ih (fun r' hr' => h r' (List.mem_cons_of_mem r hr')),
      filter_insertIfAbsent_comm (h r (List.mem_cons_self r items))]

/-- The accumulator only grows during traversal. -/
theorem traverseLinks_mono (g : Graph) (ds : DataSet) :
    ∀ (fuel : Nat) (links : List EntityLink) (cp : Path) (paths out : List Path),
      traverseLinks g ds (traverseEntity g ds fuel) links cp paths = some out →
      paths ⊆ out := by
  intro fuel
  induction fuel with
  | zero =>
    intro links
    induction links with
    | nil =>
      intro cp paths out h
      simp only [traverseLinks] at h
      cases h
      exact fun _ hp => hp
    | cons l rest ih =>
      intro cp paths out h
      simp only [traverseLinks] at h
      by_cases hg : traversalGuard ds cp l = true
      · rw [if_pos hg] at h
        cases hlook : g.entity? l.target with
        | none => rw [hlook] at h; cases h
        | some e' =>
          rw [hlook] at h
          simp only [traverseEntity] at h
          cases h
      · rw [if_neg hg] at h
        exact ih cp paths out h
  | succ f ihf =>
    intro links
    induction links with
    | nil =>
      intro cp paths out h
      simp only [traverseLinks] at h
      cases h
      exact fun _ hp => hp
    | cons l rest ih =>
      intro cp paths out h
      simp only [traverseLinks] at h
      by_cases hg : traversalGuard ds cp l = true
      · rw [if_pos hg] at h
        cases hlook : g.entity? l.target with
        | none => rw [hlook] at h; cases h
        | some e' =>
          rw [hlook] at h
          simp only [traverseEntity] at h
          cases hsub : traverseLinks g ds (traverseEntity g ds f) e'.entityLinks
              (cp ++ [l]) (appendPathIncludingSubpaths paths (cp ++ [l])) with
          | none => rw [hsub] at h; cases h
          | some paths' =>
            rw [hsub] at h
            exact fun p hp => ih cp paths' out h
              (ihf e'.entityLinks (cp ++ [l]) _ paths' hsub
                (subset_appendPathIncludingSubpaths hp))
      · rw [if_neg hg] at h
        exact ih cp paths out h

/-- Inside the subtree below the excluded path `P`, every path the traversal
registers extends `P` or was registered before: filtering extensions of `P`
away gives back the incoming accumulator. -/
theorem traverseLinks_subtree_filter (g : Graph) (ds : DataSet) (P : Path) :
    ∀ (fuel : Nat) (links : List EntityLink) (cp : Path) (paths out : List Path),
      traverseLinks g ds (traverseEntity g ds fuel) links cp paths = some out →
      P <+: cp →
      (∀ q, q ≠ [] → q <+: cp → q ∈ paths) →
      out.filter (fun q => !(decide (P <+: q))) =
        paths.filter (fun q => !(decide (P <+: q))) := by
  intro fuel
  induction fuel with
  | zero =>
    intro links
    induction links with
    | nil =>
      intro cp paths out h _ _
      simp only [traverseLinks] at h
      cases h
      rfl
    | cons l rest ih =>
      intro cp paths out h hP hinv
      simp only [traverseLinks] at h
      by_cases hg : traversalGuard ds cp l = true
      · rw [if_pos hg] at h
        cases hlook : g.entity? l.target with
        | none => rw [hlook] at h; cases h
        | some e' =>
          rw [hlook] at h
          simp only [traverseEntity] at h
          cases h
      · rw [if_neg hg] at h
        exact ih cp paths out h hP hinv
  | succ f ihf =>
    intro links
    induction links with
    | nil =>
      intro cp paths out h _ _
      simp only [traverseLinks] at h
      cases h
      rfl
    | cons l rest ih =>
      intro cp paths out h hP hinv
      simp only [traverseLinks] at h
      by_cases hg : traversalGuard ds cp l = true
      · rw [if_pos hg] at h
        cases hlook : g.entity? l.target with
        | none => rw [hlook] at h; cases h
        | some e' =>
          rw [hlook] at h
          simp only [traverseEntity] at h
          cases hsub : traverseLinks g ds (traverseEntity g ds f) e'.entityLinks
              (cp ++ [l]) (appendPathIncludingSubpaths paths (cp ++ [l])) with
          | none => rw [hsub] at h; cases h
          | some paths' =>
            rw [hsub] at h
            have happend :
                (appendPathIncludingSubpaths paths (cp ++ [l])).filter
                    (fun q => !(decide (P <+: q))) =
                  paths.filter (fun q => !(decide (P <+: q))) := by
              refine filter_foldl_insertIfAbsent_id ?_
              intro r hr
              obtain ⟨hrne, hrpre⟩ := mem_prefixesList.mp hr
              rcases prefix_snoc_cases hrpre with hcase | heq
              · exact Or.inl (hinv r hrne hcase)
              · refine Or.inr ?_
                rw [heq]
                simp only [Bool.not_eq_false', decide_eq_true_eq]
                exact hP.trans (by exact ⟨[l], rfl⟩)
            have hsubfil := ihf e'.entityLinks (cp ++ [l]) _ paths' hsub
              (hP.trans ⟨[l], rfl⟩)
              (by
                intro q hq hqpre
                rcases prefix_snoc_cases hqpre with hcase | heq
                · exact subset_appendPathIncludingSubpaths (hinv q hq hcase)
                · rw [heq]
                  exact self_mem_appendPathIncludingSubpaths (by simp))
            have hrest := ih cp paths' out h hP
              (by
                intro q hq hqpre
                exact traverseLinks_mono g ds f e'.entityLinks (cp ++ [l]) _ paths' hsub
                  (subset_appendPathIncludingSubpaths (hinv q hq hqpre)))
            rw [hrest, hsubfil, happend]
      · rw [if_neg hg] at h
        exact ih cp paths out h hP hinv

/-- The traversal guard of a data set whose `excluded_paths` are those of
`ds` plus exactly `P`. -/
theorem traversalGuard_congr_exclude {ds ds' : DataSet} {P : Path}
    (hmd : ds'.maxEntityLinkDepth = ds.maxEntityLinkDepth)
    (hinc : ds'.includedPaths = ds.includedPaths)
    (hexcl : ∀ q : Path, q ∈ ds'.excludedPaths ↔ q = P ∨ q ∈ ds.excludedPaths)
    {cp : Path} {l : EntityLink} :
    traversalGuard ds' cp l = true ↔
      (traversalGuard ds cp l = true ∧ cp ++ [l] ≠ P) := by
  rw [traversalGuard_iff, traversalGuard_iff, pathGuard_iff, pathGuard_iff, hmd, hinc]
  simp only [hexcl]
  tauto

/-- Simulation: running the traversal with `P` added to the excluded paths
produces exactly the original result minus `P` and its extensions, preserving
order. -/
theorem traverseLinks_exclude (g : Graph) (ds ds' : DataSet) (P : Path)
    (hmd : ds'.maxEntityLinkDepth = ds.maxEntityLinkDepth)
    (hinc : ds'.includedPaths = ds.includedPaths)
    (hexcl : ∀ q : Path, q ∈ ds'.excludedPaths ↔ q = P ∨ q ∈ ds.excludedPaths) :
    ∀ (fuel : Nat) (links : List EntityLink) (cp : Path) (paths out : List Path),
      traverseLinks g ds (traverseEntity g ds fuel) links cp paths = some out →
      ¬(P <+: cp) →
      (∀ q, q ≠ [] → q <+: cp → q ∈ paths) →
      traverseLinks g ds' (traverseEntity g ds' fuel) links cp
          (paths.filter (fun q => !(decide (P <+: q)))) =
        some (out.filter (fun q => !(decide (P <+: q)))) := by
  intro fuel
  induction fuel with
  | zero =>
    intro links
    induction links with
    | nil =>
      intro cp paths out h _ _
      simp only [traverseLinks] at h ⊢
      cases h
      rfl
    | cons l rest ih =>
      intro cp paths out h hPcp hinv
      simp only [traverseLinks] at h ⊢
      by_cases hg : traversalGuard ds cp l = true
      · rw [if_pos hg] at h
        cases hlook : g.entity? l.target with
        | none => rw [hlook] at h; cases h
        | some e' =>
          rw [hlook] at h
          simp only [traverseEntity] at h
          cases h
      · rw [if_neg hg] at h
        have hg' : ¬traversalGuard ds' cp l = true := fun hc =>
          hg ((traversalGuard_congr_exclude hmd hinc hexcl).mp hc).1
        rw [if_neg hg']
        exact ih cp paths out h hPcp hinv
  | succ f ihf =>
    intro links
    induction links with
    | nil =>
      intro cp paths out h _ _
      simp only [traverseLinks] at h ⊢
      cases h
      rfl
    | cons l rest ih =>
      intro cp paths out h hPcp hinv
      simp only [traverseLinks] at h ⊢
      by_cases hg : traversalGuard ds cp l = true
      · rw [if_pos hg] at h
        cases hlook : g.entity? l.target with
        | none => rw [hlook] at h; cases h
        | some e' =>
          rw [hlook] at h
          simp only [traverseEntity] at h
          cases hsub : traverseLinks g ds (traverseEntity g ds f) e'.entityLinks
              (cp ++ [l]) (appendPathIncludingSubpaths paths (cp ++ [l])) with
          | none => rw [hsub] at h; cases h
          | some paths₁ =>
            rw [hsub] at h
            have hinvsub : ∀ q, q ≠ [] → q <+: cp ++ [l] →
                q ∈ appendPathIncludingSubpaths paths (cp ++ [l]) := by
              intro q hq hqpre
              rcases prefix_snoc_cases hqpre with hcase | heq
              · exact subset_appendPathIncludingSubpaths (hinv q hq hcase)
              · rw [heq]
                exact self_mem_appendPathIncludingSubpaths (by simp)
            have hinvrest : ∀ q, q ≠ [] → q <+: cp → q ∈ paths₁ := by
              intro q hq hqpre
              exact traverseLinks_mono g ds f e'.entityLinks (cp ++ [l]) _ paths₁ hsub
                (subset_appendPathIncludingSubpaths (hinv q hq hqpre))
            by_cases hgP : cp ++ [l] = P
            · have hg' : ¬traversalGuard ds' cp l = true := fun hc =>
                ((traversalGuard_congr_exclude hmd hinc hexcl).mp hc).2 hgP
              rw [if_neg hg']
              have happend :
                  (appendPathIncludingSubpaths paths (cp ++ [l])).filter
                      (fun q => !(decide (P <+: q))) =
                    paths.filter (fun q => !(decide (P <+: q))) := by
                refine filter_foldl_insertIfAbsent_id ?_
                intro r hr
                obtain ⟨hrne, hrpre⟩ := mem_prefixesList.mp hr
                rcases prefix_snoc_cases hrpre with hcase | heq
                · exact Or.inl (hinv r hrne hcase)
                · refine Or.inr ?_
                  rw [heq, hgP]
                  simp
              have hsubfil := traverseLinks_subtree_filter g ds P f e'.entityLinks
                (cp ++ [l]) _ paths₁ hsub (hgP ▸ List.prefix_refl P) hinvsub
              have hrest := ih cp paths₁ out h hPcp hinvrest
              rw [hsubfil, happend] at hrest
              exact hrest
            · have hg' : traversalGuard ds' cp l = true :=
                (traversalGuard_congr_exclude hmd hinc hexcl).mpr ⟨hg, hgP⟩
              have hPpath : ¬(P <+: cp ++ [l]) := by
                intro hc
                rcases prefix_snoc_cases hc with hcase | heq
                · exact hPcp hcase
                · exact hgP heq.symm
              rw [if_pos hg']
              simp only [traverseEntity]
              have hcomm :
                  (appendPathIncludingSubpaths paths (cp ++ [l])).filter
                      (fun q => !(decide (P <+: q))) =
                    appendPathIncludingSubpaths
                      (paths.filter (fun q => !(decide (P <+: q)))) (cp ++ [l]) := by
                refine filter_foldl_insertIfAbsent_comm ?_
                intro r hr
                obtain ⟨hrne, hrpre⟩ := mem_prefixesList.mp hr
                simp only [Bool.not_eq_true', decide_eq_false_iff_not]
                exact fun hc => hPpath (hc.trans hrpre)
              have hfil := ihf e'.entityLinks (cp ++ [l]) _ paths₁ hsub hPpath hinvsub
              rw [← hcomm, hfil]
              exact ih cp paths₁ out h hPcp hinvrest
      · rw [if_neg hg] at h
        have hg' : ¬traversalGuard ds' cp l = true := fun hc =>
          hg ((traversalGuard_congr_exclude hmd hinc hexcl).mp hc).1
        rw [if_neg hg']
        exact ih cp paths out h hPcp hinv

/-- Claim C1: for every data set with `max_entity_link_depth = N`,
`paths_to_connected_entities` returns no path of length greater than `N`
except paths that are explicit members of `included_paths` — the inclusion
exempts exactly the member path, so a descendant beyond the depth that is
not itself a member is never returned. -/
theorem paths_within_depth_unless_included {g : Graph} {ds : DataSet} {n : Nat}
    {out : List Path} (hd : ds.maxEntityLinkDepth = some n)
    (h : pathsToConnectedEntities g ds = some out) :
    ∀ p ∈ out, p.length ≤ n ∨ p ∈ ds.includedPaths := by
  intro p hp
  have hg := pathsToConnectedEntities_sound h p hp
  exact (pathGuard_iff.mp (hg.2.2.1 p hg.1 (List.prefix_refl p))).2 n hd

/-- Witness for C1: in the example graph with depth 1 and
`include_path(['Order', 'Customer'])`, the returned 2-hop path is either
within depth or explicitly included (here: included). -/
theorem paths_within_depth_unless_included_witness :
    [linkOrderItemOrder, linkOrderCustomer].length ≤ 1 ∨
      [linkOrderItemOrder, linkOrderCustomer] ∈ dsOrderItemsInclPath.includedPaths :=
  @paths_within_depth_unless_included exGraph dsOrderItemsInclPath 1
    [[linkOrderItemOrder], [linkOrderItemOrder, linkOrderCustomer]]
    rfl (by decide) [linkOrderItemOrder, linkOrderCustomer] (by decide)

/-- Claim C7: every path tuple returned by `paths_to_connected_entities`
contains each `EntityLink` instance at most once. -/
theorem paths_contain_no_repeated_link {g : Graph} {ds : DataSet}
    {out : List Path} (h : pathsToConnectedEntities g ds = some out) :
    ∀ p ∈ out, p.Nodup := fun p hp =>
  (pathsToConnectedEntities_sound h p hp).2.1

/-- Witness for C7: the 3-hop path returned for the unrestricted example
data set repeats no link instance. -/
theorem paths_contain_no_repeated_link_witness : threeHopPath.Nodup :=
  @paths_contain_no_repeated_link exGraph dsOrderItemsNoDepth
    [[linkOrderItemOrder], [linkOrderItemOrder, linkOrderCustomer], threeHopPath]
    (by decide) threeHopPath (by decide)

/-- Claim C8: for a well-formed model, `paths_to_connected_entities` and
`connected_attributes` always return a result — the traversal's fuel (one
more than the number of distinct link instances) is never exhausted, because
no path repeats a link instance, and no lookup inside either function
fails. -/
theorem resolution_never_fails (g : Graph) (ds : DataSet) (hwf : wellFormed g ds) :
    (∃ out, pathsToConnectedEntities g ds = some out) ∧
      ∀ b, ∃ m, connectedAttributes g ds b = some m := by
  have hpaths := pathsToConnectedEntities_total hwf
  cases hp : pathsToConnectedEntities g ds with
  | none => rw [hp] at hpaths; cases hpaths
  | some out =>
    refine ⟨⟨out, rfl⟩, ?_⟩
    intro b
    have hroot := hwf.1
    cases hr : g.entity? ds.entityId with
    | none => rw [hr] at hroot; cases hroot
    | some root =>
      have hcoll : (collectAttributes g ds b out).isSome := by
        refine collectAttributes_total ?_
        intro p hpmem
        have hg := pathsToConnectedEntities_sound hp p hpmem
        exact ⟨hg.1, hg.2.2.2⟩
      cases hc : collectAttributes g ds b out with
      | none => rw [hc] at hcoll; cases hcoll
      | some rest =>
        exact ⟨(([] : Path), root.attributes) :: rest,
          by simp [connectedAttributes, hr, hp, hc]⟩

/-- Witness for C8 at the example graph and the depth-1 data set. -/
theorem resolution_never_fails_witness :
    (pathsToConnectedEntities exGraph dsOrderItemsDepth1).isSome ∧
      (connectedAttributes exGraph dsOrderItemsDepth1 false).isSome := by
  obtain ⟨⟨out, hout⟩, hm⟩ :=
    resolution_never_fails exGraph dsOrderItemsDepth1
      (by unfold wellFormed; exact ⟨by decide, by decide⟩)
  obtain ⟨m, hm'⟩ := hm false
  exact ⟨by rw [hout]; rfl, by rw [hm']; rfl⟩

/-- Claim C5: for every data set and every non-empty path `P` in its
`excluded_paths`, the result equals the result of the same data set without
that exclusion with `P` and every path extending `P` removed (so neither `P`
nor any extension is returned), while every sibling path — one not extending
`P` — is returned exactly as it would be without the exclusion, in the same
order. -/
theorem excluded_path_prunes_exactly_its_subtree {g : Graph} {ds : DataSet}
    {P : Path} {out : List Path}
    (hPne : P ≠ []) (hPmem : P ∈ ds.excludedPaths)
    (hbase : pathsToConnectedEntities g
        { ds with excludedPaths := ds.excludedPaths.erase P } = some out) :
    pathsToConnectedEntities g ds =
        some (out.filter (fun q => !(decide (P <+: q)))) ∧
      (∀ q ∈ out.filter (fun q => !(decide (P <+: q))), ¬(P <+: q)) ∧
      (∀ q ∈ out, ¬(P <+: q) → q ∈ out.filter (fun q => !(decide (P <+: q)))) := by
  refine ⟨?_, ?_, ?_⟩
  · have hid : ({ ds with excludedPaths := ds.excludedPaths.erase P } : DataSet).entityId
        = ds.entityId := rfl
    unfold pathsToConnectedEntities at hbase ⊢
    rw [hid] at hbase
    cases hroot : g.entity? ds.entityId with
    | none => rw [hroot] at hbase; cases hbase
    | some root =>
      rw [hroot] at hbase
      simp only [traverseEntity] at hbase ⊢
      have h := traverseLinks_exclude g
        { ds with excludedPaths := ds.excludedPaths.erase P } ds P rfl rfl
        (by
          intro q
          constructor
          · intro hq
            by_cases hqP : q = P
            · exact Or.inl hqP
            · exact Or.inr ((List.mem_erase_of_ne hqP).mpr hq)
          · rintro (rfl | hq)
            · exact hPmem
            · exact List.erase_subset _ _ hq)
        g.allLinks.length root.entityLinks [] [] out hbase
        (fun hc => hPne (List.prefix_nil.mp hc))
        (by intro q hq hqp; exact absurd (List.prefix_nil.mp hqp) hq)
      simpa using h
  · intro q hq
    have := (List.mem_filter.mp hq).2
    simpa using this
  · intro q hq hnq
    exact List.mem_filter.mpr ⟨hq, by simpa using hnq⟩

/-- Witness for C5, the spec's exclusion scenario: the "Customers" data set
with the back-reference path excluded resolves to exactly the one-link path,
omitting the depth-2-eligible back-reference but keeping the sibling-free
remainder. -/
theorem excluded_path_prunes_exactly_its_subtree_witness :
    pathsToConnectedEntities exGraph dsCustomersExcl =
      some [[linkCustomerOrder]] := by
  have h := (@excluded_path_prunes_exactly_its_subtree exGraph dsCustomersExcl
    customerBackRefPath [[linkCustomerOrder], [linkCustomerOrder, linkOrderCustomer]]
    (by decide) (by decide) (by decide)).1
  exact h.trans (by decide)

/-- Counterexample to C4: with `include_personal_data = False`, the
empty-path entry of `connected_attributes` still contains the root entity's
personal-data attribute ("Age", flagged `personal_data = True`), which the
claim says must be absent. -/
theorem root_attributes_ignore_personal_data_flag :
    attrAge.personalData = true ∧
      connectedAttributes gPersonRoot dsPersonRoot false =
        some [(([] : Path), [attrAge])] :=
  ⟨rfl, by decide⟩

/-- Claim C4 (amended): when `connected_attributes` is called with
`include_personal_data = False`, the personal-data filter applies only at
non-empty paths; the empty-path entry always holds ALL attributes of the
root entity, personal-data attributes included, while every attribute listed
at a non-empty path satisfies the flag. -/
theorem connected_attributes_personal_data_only_beyond_root
    {g : Graph} {ds : DataSet} {b : Bool} {root : Entity}
    {out : List (Path × List Attribute)}
    (hroot : g.entity? ds.entityId = some root)
    (h : connectedAttributes g ds b = some out) :
    ∃ rest, out = (([] : Path), root.attributes) :: rest ∧
      ∀ pr ∈ rest, ∀ a ∈ pr.2, b = true ∨ a.personalData = false := by
  unfold connectedAttributes at h
  rw [hroot] at h
  cases hp : pathsToConnectedEntities g ds with
  | none => rw [hp] at h; cases h
  | some paths =>
    rw [hp] at h
    have h' : Option.map (fun rest => ((([] : Path), root.attributes)) :: rest)
        (collectAttributes g ds b paths) = some out := h
    clear h
    cases hc : collectAttributes g ds b paths with
    | none => rw [hc] at h'; cases h'
    | some rest =>
      rw [hc] at h'
      have hout : (([] : Path), root.attributes) :: rest = out := Option.some.inj h'
      refine ⟨rest, hout.symm, ?_⟩
      clear h' hout hp
      induction paths generalizing rest with
      | nil =>
        simp only [collectAttributes, Option.some.injEq] at hc
        rw [← hc]
        intro pr hpr
        cases hpr
      | cons p ptail ih =>
        cases hlast : p.getLast? with
        | none =>
          simp only [collectAttributes, hlast] at hc
          cases hc
        | some l =>
          cases hlook : g.entity? l.target with
          | none =>
            simp only [collectAttributes, hlast, hlook] at hc
            cases hc
          | some e =>
            cases htail : collectAttributes g ds b ptail with
            | none =>
              simp only [collectAttributes, hlast, hlook, htail] at hc
              cases hc
            | some tail =>
              simp only [collectAttributes, hlast, hlook, htail,
                Option.some.injEq] at hc
              have htailprop := ih tail htail
              intro pr hpr a ha
              rw [← hc] at hpr
              by_cases hemp : (e.attributes.filter (visibleAt ds p b)).isEmpty = true
              · rw [if_pos hemp] at hpr
                exact htailprop pr hpr a ha
              · rw [if_neg hemp] at hpr
                rcases List.mem_cons.mp hpr with heq | hmem
                · rw [heq] at ha
                  have hvis := (List.mem_filter.mp ha).2
                  unfold visibleAt at hvis
                  simp only [Bool.and_eq_true, Bool.or_eq_true,
                    Bool.not_eq_true'] at hvis
                  rcases hvis.2 with hb | hpd
                  · exact Or.inl hb
                  · exact Or.inr hpd
                · exact htailprop pr hmem a ha

/-- Witness for the amended C4 at the example graph: with
`include_personal_data = False` the root entry keeps all "Order item"
attributes and the non-root entries satisfy the flag (the personal "Age"
attribute does not appear there). -/
theorem connected_attributes_personal_data_only_beyond_root_witness :
    ∃ rest,
      ([(([] : Path), entityOrderItem.attributes),
        ([linkOrderItemOrder], [attrOrderDate, attrStatus]),
        (threeHopPath, [attrOrderDate])] :
          List (Path × List Attribute)) =
        (([] : Path), entityOrderItem.attributes) :: rest ∧
      ∀ pr ∈ rest, ∀ a ∈ pr.2, false = true ∨ a.personalData = false :=
  @connected_attributes_personal_data_only_beyond_root exGraph dsOrderItemsNoDepth
    false entityOrderItem
    [(([] : Path), entityOrderItem.attributes),
      ([linkOrderItemOrder], [attrOrderDate, attrStatus]),
      (threeHopPath, [attrOrderDate])]
    rfl (by decide)

/-- Counterexample to C6: in the scenario's data set (rooted at "Order item",
`max_entity_link_depth = 1`,
`include_attributes(['Order', 'Customer', 'Order'], ['Order date'])`),
`connected_attributes` has NO entry at the 3-hop path — not one attribute:
the depth limit prunes traversal at the path's 2-hop prefix. -/
theorem three_hop_path_has_no_attributes_under_depth_limit :
    dsOrderItemsDepth1.maxEntityLinkDepth = some 1 ∧
      dsOrderItemsDepth1.includedAttributes = [(threeHopPath, [attrOrderDate])] ∧
      (connectedAttributes exGraph dsOrderItemsDepth1 true).map
        (fun m => List.lookup threeHopPath m) = some none :=
  ⟨rfl, rfl, by decide⟩

/-- Claim C6 (amended): in the scenario, `connected_attributes` surfaces no
attribute at the 3-hop path at all (the result has no entry for it, because
the depth limit prunes the traversal at the 2-hop prefix, which is neither
within depth nor in `included_paths`); only without the depth limit would
exactly the one attribute "Order date" surface at that path. -/
theorem three_hop_attributes_depth_limit_contrast :
    (connectedAttributes exGraph dsOrderItemsDepth1 true).map
        (fun m => List.lookup threeHopPath m) = some none ∧
      (connectedAttributes exGraph dsOrderItemsNoDepth true).map
        (fun m => List.lookup threeHopPath m) = some (some [attrOrderDate]) :=
  ⟨by decide, by decide⟩

/-! ## Metric rendering claims -/

theorem sqlFormulaGuarded_eq_map (parents : List Metric) :
    sqlFormulaGuarded parents =
      parents.map (fun p => "(NULLIF(".toList ++ p.sqlFormula ++ ", 0.0))".toList) := by
  induction parents with
  | nil => rfl
  | cons p ps ih => simp [sqlFormulaGuarded, ih]

theorem sqlFormulaPlain_eq_map (parents : List Metric) :
    sqlFormulaPlain parents =
      parents.map (fun p => '(' :: p.sqlFormula ++ [')']) := by
  induction parents with
  | nil => rfl
  | cons p ps ih => simp [sqlFormulaPlain, ih]

/-- Counterexample to C2: for the formula `[Revenue (lifetime)] / [# Orders]`
the source wraps the NUMERATOR in the `NULLIF` guard as well, so the guard is
not applied "iff the parent appears after a division operator": the
spec-modelled rendering differs from the source's rendering exactly on the
numerator. -/
theorem sql_guard_not_restricted_to_parents_after_division :
    Metric.sqlFormulaSpecDivGuard metricRevenuePerOrder ≠
        Metric.sqlFormula metricRevenuePerOrder ∧
      Metric.sqlFormula metricRevenuePerOrder =
        ("(NULLIF(COALESCE(\"Customer\".revenue_lifetime, 0), 0.0))" ++
          " / (NULLIF(COALESCE(\"Customer\".number_of_orders, 0), 0.0))").toList ∧
      Metric.sqlFormulaSpecDivGuard metricRevenuePerOrder =
        ("(COALESCE(\"Customer\".revenue_lifetime, 0))" ++
          " / (NULLIF(COALESCE(\"Customer\".number_of_orders, 0), 0.0))").toList :=
  ⟨by decide, by decide, by decide⟩

/-- Claim C2 (amended): `ComposedMetric.sql_formula` substitutes each
parent's rendered SQL into the template; if the template contains a division
operator ANYWHERE, every parent — numerators included — is wrapped in
`(NULLIF(..., 0.0))`, and if it contains none, every parent is wrapped in
plain parentheses; the decision is taken independently at every nesting
level, so the guard propagates through nested composed metrics.  In
particular `[A] / [B]` guards B (and also A), a division-free `[A] + [B]`
renders without any `NULLIF`, and a division nested under a `+` keeps its
guard. -/
theorem composed_sql_guards_all_parents_iff_template_divides :
    (∀ (name : List Char) (segs : List (List Char)) (parents : List Metric),
        templateHasDivision segs = true →
        Metric.sqlFormula (.composed name segs parents) =
          formatTemplate segs (parents.map (fun p =>
            "(NULLIF(".toList ++ p.sqlFormula ++ ", 0.0))".toList))) ∧
      (∀ (name : List Char) (segs : List (List Char)) (parents : List Metric),
        templateHasDivision segs = false →
        Metric.sqlFormula (.composed name segs parents) =
          formatTemplate segs (parents.map (fun p => '(' :: p.sqlFormula ++ [')']))) ∧
      hasSubstring (Metric.sqlFormula metricRevenuePlus) "NULLIF".toList = false ∧
      hasSubstring (Metric.sqlFormula metricNestedPlus) "NULLIF".toList = true := by
  refine ⟨?_, ?_, by decide, by decide⟩
  · intro name segs parents hdiv
    simp [Metric.sqlFormula, hdiv, sqlFormulaGuarded_eq_map]
  · intro name segs parents hdiv
    simp [Metric.sqlFormula, hdiv, sqlFormulaPlain_eq_map]

/-- Witness for the amended C2 at the example division metric. -/
theorem composed_sql_guards_all_parents_iff_template_divides_witness :
    Metric.sqlFormula
        (.composed "Revenue per order".toList ["".toList, " / ".toList, "".toList]
          [metricRevenueLifetime, metricNumOrders]) =
      formatTemplate ["".toList, " / ".toList, "".toList]
        ([metricRevenueLifetime, metricNumOrders].map (fun p =>
          "(NULLIF(".toList ++ p.sqlFormula ++ ", 0.0))".toList)) :=
  composed_sql_guards_all_parents_iff_template_divides.1
    "Revenue per order".toList ["".toList, " / ".toList, "".toList]
    [metricRevenueLifetime, metricNumOrders] (by decide)

theorem replaceChar_append (c : Char) (r a b : List Char) :
    replaceChar c r (a ++ b) = replaceChar c r a ++ replaceChar c r b := by
  induction a with
  | nil => rfl
  | cons x xs ih =>
    by_cases hx : x = c <;> simp [replaceChar, hx, ih]

theorem replaceChar_of_not_mem {c : Char} {r a : List Char} (h : c ∉ a) :
    replaceChar c r a = a := by
  induction a with
  | nil => rfl
  | cons x xs ih =>
    have hx : ¬x = c := fun hc => h (hc ▸ List.mem_cons_self x xs)
    simp only [replaceChar, if_neg hx]
    rw [ih (fun hc => h (List.mem_cons_of_mem x hc))]

/-- Counterexample to C3: the calculated-member formula generated for
`[Revenue (lifetime)] / [# Orders]` contains no division guard of any kind,
while the spec-modelled rendering (same NULLIF-style guard as the SQL
generator) guards the parent after the division operator — the two
disagree. -/
theorem calculated_member_formula_lacks_division_guard :
    calculatedMemberFormula ["".toList, " / ".toList, "".toList]
        [metricRevenueLifetime, metricNumOrders] =
      "[Measures].[Revenue (lifetime)] / [Measures].[# Orders]".toList ∧
      hasSubstring (calculatedMemberFormula ["".toList, " / ".toList, "".toList]
        [metricRevenueLifetime, metricNumOrders]) "NULLIF".toList = false ∧
      calculatedMemberFormulaSpecDivGuard ["".toList, " / ".toList, "".toList]
          [metricRevenueLifetime, metricNumOrders] ≠
        calculatedMemberFormula ["".toList, " / ".toList, "".toList]
          [metricRevenueLifetime, metricNumOrders] :=
  ⟨by decide, by decide, by decide⟩

/-- Claim C3 (amended): the calculated member generated per `ComposedMetric`
substitutes each parent metric's qualified name `[Measures].[name]` into the
formula template (provided names and template text contain no `[` of their
own, which the bracket-rewriting `.replace('[', '[Measures].[')` would also
mangle), and applies NO division guard — unlike the SQL generator. -/
theorem calculated_member_substitutes_qualified_names
    {segs : List (List Char)} {parents : List Metric}
    (hsegs : ∀ s ∈ segs, '[' ∉ s)
    (hnames : ∀ p ∈ parents, '[' ∉ p.name) :
    calculatedMemberFormula segs parents =
      formatTemplate segs (parents.map (fun p =>
        "[Measures].[".toList ++ p.name ++ [']'])) := by
  unfold calculatedMemberFormula
  induction segs generalizing parents with
  | nil => rfl
  | cons s srest ih =>
    cases parents with
    | nil =>
      simp only [List.map_nil, formatTemplate, replaceChar_append]
      rw [replaceChar_of_not_mem (hsegs s (List.mem_cons_self s srest))]
      have := @ih [] (fun s' hs' => hsegs s' (List.mem_cons_of_mem s hs'))
        (fun p hp => absurd hp (List.not_mem_nil p))
      simpa using this
    | cons p prest =>
      simp only [List.map_cons, formatTemplate, replaceChar_append]
      rw [replaceChar_of_not_mem (hsegs s (List.mem_cons_self s srest))]
      have h1 : replaceChar '[' ("[Measures].[".toList) ('[' :: p.name) =
          "[Measures].[".toList ++ p.name := by
        simp [replaceChar,
          replaceChar_of_not_mem (hnames p (List.mem_cons_self p prest))]
      have h2 : replaceChar '[' ("[Measures].[".toList) ([']'] : List Char) = [']'] :=
        replaceChar_of_not_mem (by simp)
      rw [h1, h2, ih (fun s' hs' => hsegs s' (List.mem_cons_of_mem s hs'))
        (fun q hq => hnames q (List.mem_cons_of_mem p hq))]
      try simp [List.append_assoc]

/-- Witness for the amended C3 at the example division metric. -/
theorem calculated_member_substitutes_qualified_names_witness :
    calculatedMemberFormula ["".toList, " + ".toList, "".toList]
        [metricRevenueLifetime, metricNumOrders] =
      formatTemplate ["".toList, " + ".toList, "".toList]
        ([metricRevenueLifetime, metricNumOrders].map (fun p =>
          "[Measures].[".toList ++ p.name ++ [']'])) :=
  calculated_member_substitutes_qualified_names (by decide) (by decide)

/-- Claim C10: the default measure of a generated cube is
`list(self.data_set.metrics.keys())[0]` — the first metric name in insertion
order — so the access succeeds exactly when the metric map is non-empty, and
raises `IndexError` (modelled as `none`) on an empty metric map. -/
theorem cube_default_measure_is_first_metric (ds : DataSet) :
    (ds.metrics ≠ [] →
      ∃ n m rest, ds.metrics = (n, m) :: rest ∧ cubeDefaultMeasure ds = some n) ∧
      (ds.metrics = [] → cubeDefaultMeasure ds = none) := by
  constructor
  · intro h
    cases hm : ds.metrics with
    | nil => exact absurd hm h
    | cons nm rest =>
      obtain ⟨n, m⟩ := nm
      exact ⟨n, m, rest, rfl, by simp [cubeDefaultMeasure, hm]⟩
  · intro h
    simp [cubeDefaultMeasure, h]

/-- Witness for C10: the example "Customers" data set with three metrics has
default measure "# Orders"; a data set with no metrics yields `none` (the
`IndexError`). -/
theorem cube_default_measure_is_first_metric_witness :
    (∃ n m rest, dsCustomersMetrics.metrics = (n, m) :: rest ∧
      cubeDefaultMeasure dsCustomersMetrics = some n) ∧
      cubeDefaultMeasure dsPersonRoot = none :=
  ⟨(cube_default_measure_is_first_metric dsCustomersMetrics).1 (List.cons_ne_nil _ _),
    (cube_default_measure_is_first_metric dsPersonRoot).2 rfl⟩

/-! ## Name normalization claims -/

theorem flattenChunks_toChunks : ∀ s : List Char, flattenChunks (toChunks s) = s := by
  intro s
  induction s with
  | nil => rfl
  | cons c cs ih =>
    simp only [toChunks]
    cases htc : toChunks cs with
    | nil =>
      rw [htc] at ih
      simp only [flattenChunks, List.flatMap_nil] at ih
      simp [flattenChunks, ← ih]
    | cons bc rest =>
      obtain ⟨b, run⟩ := bc
      rw [htc] at ih
      simp only [flattenChunks, List.flatMap_cons] at ih
      by_cases hb : (isWordChar c == b) = true
      · simp [flattenChunks, hb, ih]
      · simp [flattenChunks, hb, ih]

theorem chunksNoReps_tail {x : Bool × List Char} {rest : List (Bool × List Char)}
    (h : chunksNoReps (x :: rest) = true) : chunksNoReps rest = true := by
  obtain ⟨b, chunk⟩ := x
  cases b
  · simpa [chunksNoReps] using h
  · cases rest with
    | nil => rfl
    | cons y rest2 =>
      obtain ⟨b2, c2⟩ := y
      cases b2
      · cases rest2 with
        | nil => simp [chunksNoReps]
        | cons z rest3 =>
          obtain ⟨b3, c3⟩ := z
          cases b3
          · simpa [chunksNoReps] using h
          · simp only [chunksNoReps, Bool.and_eq_true] at h
            exact h.2
      · simpa [chunksNoReps] using h

theorem dropWordReps_id {w : List Char} {rest : List (Bool × List Char)}
    (h : chunksNoReps ((true, w) :: rest) = true) : dropWordReps w rest = rest := by
  cases rest with
  | nil => rfl
  | cons y rest2 =>
    obtain ⟨b2, c2⟩ := y
    cases b2
    · cases rest2 with
      | nil => rfl
      | cons z rest3 =>
        obtain ⟨b3, c3⟩ := z
        cases b3
        · rfl
        · simp only [chunksNoReps, Bool.and_eq_true, Bool.not_eq_true',
            Bool.and_eq_false_iff, decide_eq_false_iff_not] at h
          refine if_neg ?_
          rintro ⟨hsp, hw⟩
          rcases h.1 with hc | hc
          · exact hc hsp
          · exact hc hw
    · rfl

theorem rrwGo_id : ∀ (fuel : Nat) (l : List (Bool × List Char)),
    chunksNoReps l = true → rrwGo fuel l = l := by
  intro fuel
  induction fuel with
  | zero => intro l _; rfl
  | succ f ih =>
    intro l h
    cases l with
    | nil => rfl
    | cons x rest =>
      obtain ⟨b, chunk⟩ := x
      cases b
      · simp only [rrwGo]
        rw [ih rest (chunksNoReps_tail h)]
      · simp only [rrwGo]
        rw [dropWordReps_id h, ih rest (chunksNoReps_tail h)]

theorem pyStrip_eq_self {s : List Char}
    (hhead : ∀ c, s.head? = some c → isSpaceChar c = false)
    (hlast : ∀ c, s.getLast? = some c → isSpaceChar c = false) :
    pyStrip s = s := by
  unfold pyStrip
  have h1 : s.dropWhile isSpaceChar = s := by
    cases s with
    | nil => rfl
    | cons c cs => simp [List.dropWhile_cons, hhead c rfl]
  rw [h1]
  have h2 : s.reverse.dropWhile isSpaceChar = s.reverse := by
    cases hr : s.reverse with
    | nil => rfl
    | cons c cs =>
      have hlc : s.getLast? = some c := by
        rw [← List.head?_reverse, hr]
        rfl
      simp [List.dropWhile_cons, hlast c hlc]
  rw [h2, List.reverse_reverse]

theorem collapseWsGo_eq_self : ∀ (fuel : Nat) (s : List Char),
    noAdjacentWs s = true → collapseWsGo fuel s = s := by
  intro fuel
  induction fuel with
  | zero => intro s _; rfl
  | succ f ih =>
    intro s h
    cases s with
    | nil => rfl
    | cons c s' =>
      cases s' with
      | nil => rfl
      | cons d rest =>
        simp only [noAdjacentWs, Bool.and_eq_true, Bool.not_eq_true'] at h
        simp only [collapseWsGo, h.1, Bool.false_eq_true, if_false]
        rw [ih (d :: rest) h.2]

theorem natToLE_length (n count : Nat) : (natToLE n count).length = count := by
  simp [natToLE]

theorem md5Digest_length (msg : List Nat) : (md5Digest msg).length = 16 := by
  unfold md5Digest
  simp [natToLE_length]

theorem flatMap_byteToHex_length : ∀ l : List Nat,
    (l.flatMap byteToHex).length = 2 * l.length := by
  intro l
  induction l with
  | nil => rfl
  | cons b bs ih =>
    simp only [List.flatMap_cons, List.length_append, ih, byteToHex,
      List.length_cons, List.length_nil, List.length_cons]
    omega

theorem md5Hex_length (s : List Char) : (md5Hex s).length = 32 := by
  unfold md5Hex
  rw [flatMap_byteToHex_length, md5Digest_length]

theorem hexDigitChar_isHex : ∀ k, k < 16 → isHexDigitChar (hexDigitChar k) = true := by
  decide

theorem md5Hex_all_hex (s : List Char) : ∀ c ∈ md5Hex s, isHexDigitChar c = true := by
  intro c hc
  unfold md5Hex at hc
  rcases List.mem_flatMap.mp hc with ⟨b, -, hcb⟩
  unfold byteToHex at hcb
  simp only [List.mem_cons, List.not_mem_nil, or_false, List.mem_singleton] at hcb
  rcases hcb with rfl | rfl
  · exact hexDigitChar_isHex _ (Nat.mod_lt _ (by omega))
  · exact hexDigitChar_isHex _ (Nat.mod_lt _ (by omega))

/-- Claim C9: `normalize_name` is a pure function of its input (the
embedding is a Lean function, so determinism — identical inputs give
identical outputs within and across runs — is immediate), it is the identity
on already-normalized input, and whenever the normalized (pre-truncation)
form exceeds the maximum length 63, the output is the first 55 characters
followed by exactly the first 8 characters of the MD5 hex digest of the full
pre-truncation string: total length exactly 63, with an 8-character
all-hexadecimal digest suffix. -/
theorem normalize_name_idempotent_and_truncated :
    (∀ s : List Char, isNormalizedB s = true → normalizeNameChars 63 s = some s) ∧
      (∀ s n : List Char, preTruncation s = some n → 63 < n.length →
        normalizeNameChars 63 s = some (n.take 55 ++ (md5Hex n).take 8) ∧
        (n.take 55 ++ (md5Hex n).take 8).length = 63 ∧
        ((md5Hex n).take 8).length = 8 ∧
        ∀ c ∈ (md5Hex n).take 8, isHexDigitChar c = true) := by
  constructor
  · intro s hs
    unfold isNormalizedB at hs
    simp only [Bool.and_eq_true, Bool.not_eq_true', decide_eq_true_eq] at hs
    obtain ⟨⟨⟨⟨⟨⟨hne, hnr⟩, hh⟩, hl⟩, ha⟩, hcap⟩, hlen⟩ := hs
    have hrrw : removeRepeatingWords s = s := by
      unfold removeRepeatingWords rrwChunks
      rw [rrwGo_id _ _ hnr, flattenChunks_toChunks]
    have hstrip : pyStrip s = s := by
      refine pyStrip_eq_self ?_ ?_
      · intro c hc
        rw [hc] at hh
        simpa using hh
      · intro c hc
        rw [hc] at hl
        simpa using hl
    have hcoll : collapseWs s = s := collapseWsGo_eq_self _ _ ha
    unfold normalizeNameChars preTruncation
    rw [hrrw, hstrip, hcoll]
    cases s with
    | nil => simp at hne
    | cons c cs =>
      have hcup : c.toUpper = c := by simpa using hcap
      simp only [hcup, Option.map_some]
      refine congrArg some ?_
      unfold limitLength
      rw [if_neg ?_]
      rintro ⟨-, hgt⟩
      omega
  · intro s n hpre hlen
    have hform : normalizeNameChars 63 s = some (n.take 55 ++ (md5Hex n).take 8) := by
      unfold normalizeNameChars
      rw [hpre]
      refine congrArg some ?_
      unfold limitLength
      rw [if_pos ⟨by omega, hlen⟩, if_pos (by omega : (8 : Nat) ≤ 63)]
    refine ⟨hform, ?_, ?_, ?_⟩
    · simp only [List.length_append, List.length_take, md5Hex_length]
      omega
    · simp only [List.length_take, md5Hex_length]
      omega
    · intro c hc
      exact md5Hex_all_hex n c (List.take_subset _ _ hc)

/-- Witness for C9: a short normalized name is returned unchanged, and a
70-character name is truncated to 55 characters plus the 8-character digest
suffix. -/
theorem normalize_name_idempotent_and_truncated_witness :
    normalizeNameChars 63 "Foo bar".toList = some "Foo bar".toList ∧
      normalizeNameChars 63 (List.replicate 70 'A') =
        some ((List.replicate 70 'A').take 55 ++
          (md5Hex (List.replicate 70 'A')).take 8) ∧
      ((List.replicate 70 'A').take 55 ++
        (md5Hex (List.replicate 70 'A')).take 8).length = 63 := by
  have h1 := normalize_name_idempotent_and_truncated.1 "Foo bar".toList (by decide)
  have h2 := normalize_name_idempotent_and_truncated.2 (List.replicate 70 'A')
    (List.replicate 70 'A') (by decide) (by decide)
  exact ⟨h1, h2.1, h2.2.1⟩

end MaraSchema
